import Mathlib

/-!
Verification development for the structured-note validation pipeline of
`scripts/02_generate_notes.py` (repository `incubator-ai-hw2`).

Python strings are modelled as `List Char` (`PyStr`); the relevant string
primitives (`str.strip`, `str.startswith`, `str.find`, `str.rfind`, slicing)
are embedded directly.  JSON values are modelled by the inductive type `Json`
with integer numerals (the pipeline's schema only uses integers; IEEE floats
are outside the model, so `loads` rejects fractional/exponent numerals).
`json.loads` is embedded as a fuelled recursive-descent parser matching
CPython's strict decoder (duplicate object keys follow dict semantics: the
first occurrence keeps its position, the last value wins), and
`json.dump(..., indent=2, ensure_ascii=False)` as `dumps`.
-/

set_option maxRecDepth 10000

abbrev PyStr := List Char

def chars (s : String) : PyStr := s.toList

/-- Whitespace characters removed by Python's `str.strip()` (ASCII range;
Unicode space classes beyond these are not modelled). -/
def pySpace (c : Char) : Bool :=
  c = ' ' || c = '\t' || c = '\n' || c = '\r' || c = '\x0b' || c = '\x0c'

def lstrip (s : PyStr) : PyStr := s.dropWhile pySpace

def rstrip (s : PyStr) : PyStr := ((s.reverse).dropWhile pySpace).reverse

/-- Python `str.strip()`. -/
def pyStrip (s : PyStr) : PyStr := rstrip (lstrip s)

/-- Python `str.startswith(pat)`. -/
def pyStartswith (pat s : PyStr) : Bool := pat.isPrefixOf s

def findFrom (pat : PyStr) : PyStr → Nat → Option Nat
  | s, i =>
    if pat.isPrefixOf s then some i
    else
      match s with
      | [] => none
      | _ :: t => findFrom pat t (i + 1)

/-- Python `str.find(pat)`: index of the first occurrence, `-1` if absent. -/
def pyFind (pat s : PyStr) : Int :=
  match findFrom pat s 0 with
  | some i => (i : Int)
  | none => -1

def rfindOpt (pat : PyStr) : PyStr → Option Nat
  | [] => if pat.isPrefixOf [] then some 0 else none
  | c :: t =>
    match rfindOpt pat t with
    | some j => some (j + 1)
    | none => if pat.isPrefixOf (c :: t) then some 0 else none

/-- Python `str.rfind(pat)`: index of the last occurrence, `-1` if absent. -/
def pyRfind (pat s : PyStr) : Int :=
  match rfindOpt pat s with
  | some i => (i : Int)
  | none => -1

/-- Python slice `s[a:b]` for the non-negative indices arising in the
sanitizer (`a = find(...) + k` under a `startswith` guard, `b = rfind(...)`
under `b > a`). -/
def pySlice (s : PyStr) (a b : Int) : PyStr :=
  (s.drop a.toNat).take (b.toNat - a.toNat)

/-- Python slice `s[a:]` for a non-negative index. -/
def pySliceFrom (s : PyStr) (a : Int) : PyStr := s.drop a.toNat

def fenceJsonPat : PyStr := ['`', '`', '`', 'j', 's', 'o', 'n']

def fencePat : PyStr := ['`', '`', '`']

def bracePat : PyStr := ['\x7b']

/-- Lines 127-146 of `validate_and_save_notes`: trim the response, strip a
leading markdown code fence (```json or generic) together with the trailing
fence, then drop any text before the first brace. -/
def sanitize (notes_json_str : PyStr) : PyStr :=
  let cleaned := pyStrip notes_json_str
  let cleaned :=
    if pyStartswith fenceJsonPat cleaned then
      let start_idx := pyFind fenceJsonPat cleaned + 7
      let end_idx := pyRfind fencePat cleaned
      if end_idx > start_idx then pyStrip (pySlice cleaned start_idx end_idx)
      else cleaned
    else if pyStartswith fencePat cleaned then
      let start_idx := pyFind fencePat cleaned + 3
      let end_idx := pyRfind fencePat cleaned
      if end_idx > start_idx then pyStrip (pySlice cleaned start_idx end_idx)
      else cleaned
    else cleaned
  if pyFind bracePat cleaned > 0 then pySliceFrom cleaned (pyFind bracePat cleaned)
  else cleaned

/-- JSON values as produced by `json.loads`.  Numerals are integers: the
pipeline's schema uses only integer fields, and IEEE floats are outside the
model (the embedded parser rejects fractional/exponent numerals and the
`NaN`/`Infinity` extensions). -/
inductive Json where
  | null
  | bool (b : Bool)
  | num (n : Int)
  | str (s : PyStr)
  | arr (elems : List Json)
  | obj (members : List (PyStr × Json))

/-- JSON insignificant whitespace (CPython's `json` module). -/
def jsonWs (c : Char) : Bool :=
  c = ' ' || c = '\t' || c = '\n' || c = '\r'

def skipWs (s : PyStr) : PyStr := s.dropWhile jsonWs

def hexVal (c : Char) : Option Nat :=
  if '0' ≤ c ∧ c ≤ '9' then some (c.toNat - '0'.toNat)
  else if 'a' ≤ c ∧ c ≤ 'f' then some (c.toNat - 'a'.toNat + 10)
  else if 'A' ≤ c ∧ c ≤ 'F' then some (c.toNat - 'A'.toNat + 10)
  else none

/-- Body of a JSON string after the opening quote: strict mode (unescaped
control characters are rejected), the standard escapes, and `\uXXXX` with
surrogate-pair combination.  A lone surrogate is rejected (CPython would
produce a string that cannot be represented with unicode scalar values). -/
def parseStrBody : Nat → PyStr → Option (PyStr × PyStr)
  | 0, _ => none
  | fuel + 1, s =>
    match s with
    | [] => none
    | c :: r =>
      if c = '"' then some ([], r)
      else if c = '\\' then
        match r with
        | [] => none
        | e :: r1 =>
          if e = '"' then (parseStrBody fuel r1).map (fun p => ('"' :: p.1, p.2))
          else if e = '\\' then (parseStrBody fuel r1).map (fun p => ('\\' :: p.1, p.2))
          else if e = '/' then (parseStrBody fuel r1).map (fun p => ('/' :: p.1, p.2))
          else if e = 'b' then (parseStrBody fuel r1).map (fun p => ('\x08' :: p.1, p.2))
          else if e = 'f' then (parseStrBody fuel r1).map (fun p => ('\x0c' :: p.1, p.2))
          else if e = 'n' then (parseStrBody fuel r1).map (fun p => ('\n' :: p.1, p.2))
          else if e = 'r' then (parseStrBody fuel r1).map (fun p => ('\r' :: p.1, p.2))
          else if e = 't' then (parseStrBody fuel r1).map (fun p => ('\t' :: p.1, p.2))
          else if e = 'u' then
            match r1 with
            | h1 :: h2 :: h3 :: h4 :: r2 =>
              match hexVal h1, hexVal h2, hexVal h3, hexVal h4 with
              | some a, some b, some c', some d =>
                let n := ((a * 16 + b) * 16 + c') * 16 + d
                if 0xD800 ≤ n ∧ n ≤ 0xDBFF then
                  match r2 with
                  | e1 :: e2 :: g1 :: g2 :: g3 :: g4 :: r3 =>
                    if e1 = '\\' ∧ e2 = 'u' then
                      match hexVal g1, hexVal g2, hexVal g3, hexVal g4 with
                      | some a2, some b2, some c2, some d2 =>
                        let m := ((a2 * 16 + b2) * 16 + c2) * 16 + d2
                        if 0xDC00 ≤ m ∧ m ≤ 0xDFFF then
                          (parseStrBody fuel r3).map
                            (fun p =>
                              (Char.ofNat
                                (0x10000 + (n - 0xD800) * 0x400 + (m - 0xDC00)) :: p.1,
                               p.2))
                        else none
                      | _, _, _, _ => none
                    else none
                  | _ => none
                else if 0xDC00 ≤ n ∧ n ≤ 0xDFFF then none
                else (parseStrBody fuel r2).map (fun p => (Char.ofNat n :: p.1, p.2))
              | _, _, _, _ => none
            | _ => none
          else none
      else if c.toNat < 0x20 then none
      else (parseStrBody fuel r).map (fun p => (c :: p.1, p.2))

def digitVal (c : Char) : Nat := c.toNat - '0'.toNat

def decodeDigits (ds : PyStr) : Nat :=
  ds.foldl (fun a c => a * 10 + digitVal c) 0

/-- CPython's `NUMBER_RE` integer part: `-?(0|[1-9][0-9]*)`.  A following
`.`/`e`/`E` would make the numeral a float, which the model does not
represent, so such numerals are rejected here. -/
def parseNum (s : PyStr) : Option (Json × PyStr) :=
  match s with
  | [] => none
  | c0 :: t0 =>
    let p : Bool × PyStr := if c0 = '-' then (true, t0) else (false, c0 :: t0)
    match p.2 with
    | [] => none
    | c :: t =>
      if c.isDigit then
        let q := if c = '0' then ([c], t)
                 else ((c :: t).takeWhile Char.isDigit, (c :: t).dropWhile Char.isDigit)
        let floatish : Bool := match q.2 with
          | [] => false
          | c2 :: _ => c2 = '.' || c2 = 'e' || c2 = 'E'
        if floatish then none
        else
          let v : Int := (decodeDigits q.1 : Int)
          some (.num (if p.1 then -v else v), q.2)
      else none

/-- CPython `dict` insertion: an existing key keeps its position and takes
the new value; a fresh key is appended. -/
def insertKey (k : PyStr) (v : Json) : List (PyStr × Json) → List (PyStr × Json)
  | [] => [(k, v)]
  | (k', v') :: t => if k' = k then (k', v) :: t else (k', v') :: insertKey k v t

mutual

/-- One JSON value, starting at a non-whitespace position; returns the value
and the unconsumed remainder. -/
def parseVal : Nat → PyStr → Option (Json × PyStr)
  | 0, _ => none
  | fuel + 1, s =>
    match s with
    | [] => none
    | c :: r =>
      if c = '"' then
        match parseStrBody fuel r with
        | some (cs, rest) => some (.str cs, rest)
        | none => none
      else if c = '[' then
        match skipWs r with
        | [] => none
        | c2 :: r2 =>
          if c2 = ']' then some (.arr [], r2)
          else
            match parseItems fuel (c2 :: r2) with
            | some (xs, rest) => some (.arr xs, rest)
            | none => none
      else if c = '\x7b' then
        match skipWs r with
        | [] => none
        | c2 :: r2 =>
          if c2 = '\x7d' then some (.obj [], r2)
          else
            match parseMembers fuel (c2 :: r2) [] with
            | some (ms, rest) => some (.obj ms, rest)
            | none => none
      else if c = 'n' then
        match r with
        | 'u' :: 'l' :: 'l' :: r2 => some (.null, r2)
        | _ => none
      else if c = 't' then
        match r with
        | 'r' :: 'u' :: 'e' :: r2 => some (.bool true, r2)
        | _ => none
      else if c = 'f' then
        match r with
        | 'a' :: 'l' :: 's' :: 'e' :: r2 => some (.bool false, r2)
        | _ => none
      else parseNum (c :: r)

/-- Comma-separated array items up to the closing bracket. -/
def parseItems : Nat → PyStr → Option (List Json × PyStr)
  | 0, _ => none
  | fuel + 1, s =>
    match parseVal fuel s with
    | none => none
    | some (v, rest) =>
      match skipWs rest with
      | [] => none
      | c :: r2 =>
        if c = ',' then
          match parseItems fuel (skipWs r2) with
          | some (xs, rest2) => some (v :: xs, rest2)
          | none => none
        else if c = ']' then some ([v], r2)
        else none

/-- Comma-separated object members up to the closing brace, accumulating
with dict semantics. -/
def parseMembers : Nat → PyStr → List (PyStr × Json) → Option (List (PyStr × Json) × PyStr)
  | 0, _, _ => none
  | fuel + 1, s, acc =>
    match s with
    | [] => none
    | c :: r =>
      if c = '"' then
        match parseStrBody fuel r with
        | none => none
        | some (k, rest) =>
          match skipWs rest with
          | [] => none
          | c2 :: r2 =>
            if c2 = ':' then
              match parseVal fuel (skipWs r2) with
              | none => none
              | some (v, rest2) =>
                match skipWs rest2 with
                | [] => none
                | c3 :: r3 =>
                  if c3 = ',' then parseMembers fuel (skipWs r3) (insertKey k v acc)
                  else if c3 = '\x7d' then some (insertKey k v acc, r3)
                  else none
            else none
      else none

end

/-- `json.loads`, restricted to the integer-numeral fragment (see `Json`). -/
def loads (s : PyStr) : Option Json :=
  match parseVal (2 * s.length + 2) (skipWs s) with
  | some (v, rest) => if skipWs rest = [] then some v else none
  | none => none

def digitCh (n : Nat) : Char := Char.ofNat ('0'.toNat + n)

def natReprAux : Nat → Nat → PyStr
  | 0, _ => []
  | fuel + 1, n =>
    if n < 10 then [digitCh n]
    else natReprAux fuel (n / 10) ++ [digitCh (n % 10)]

def natRepr (n : Nat) : PyStr := natReprAux (n + 1) n

/-- Python `repr` of an `int`. -/
def intRepr (n : Int) : PyStr :=
  if n < 0 then '-' :: natRepr (-n).toNat else natRepr n.toNat

def hexDigitCh (n : Nat) : Char :=
  if n < 10 then digitCh n else Char.ofNat ('a'.toNat + (n - 10))

/-- CPython `json.encoder` with `ensure_ascii=False`: escape `"`,`\` and
control characters, everything else verbatim. -/
def escapeChar (c : Char) : PyStr :=
  if c = '"' then ['\\', '"']
  else if c = '\\' then ['\\', '\\']
  else if c = '\n' then ['\\', 'n']
  else if c = '\t' then ['\\', 't']
  else if c = '\r' then ['\\', 'r']
  else if c = '\x08' then ['\\', 'b']
  else if c = '\x0c' then ['\\', 'f']
  else if c.toNat < 0x20 then
    ['\\', 'u', '0', '0', hexDigitCh (c.toNat / 16), hexDigitCh (c.toNat % 16)]
  else [c]

def escapeStr : PyStr → PyStr
  | [] => []
  | c :: t => escapeChar c ++ escapeStr t

def encodeStr (s : PyStr) : PyStr := '"' :: escapeStr s ++ ['"']

def pad (n : Nat) : PyStr := List.replicate n ' '

mutual

/-- `json.dump(v, f, indent=2, ensure_ascii=False)` at indentation `ind`. -/
def dumpVal : Nat → Json → PyStr
  | _, .null => chars "null"
  | _, .bool true => chars "true"
  | _, .bool false => chars "false"
  | _, .num n => intRepr n
  | _, .str s => encodeStr s
  | _, .arr [] => chars "[]"
  | ind, .arr (x :: xs) =>
    '[' :: '\n' :: pad (ind + 2) ++ dumpVal (ind + 2) x ++ dumpItems ind xs
  | _, .obj [] => chars "\x7b\x7d"
  | ind, .obj ((k, v) :: ms) =>
    '\x7b' :: '\n' :: pad (ind + 2) ++ encodeStr k ++ ':' :: ' ' ::
      dumpVal (ind + 2) v ++ dumpMembers ind ms

/-- Remaining array items and the closing bracket. -/
def dumpItems : Nat → List Json → PyStr
  | ind, [] => '\n' :: pad ind ++ [']']
  | ind, x :: xs =>
    ',' :: '\n' :: pad (ind + 2) ++ dumpVal (ind + 2) x ++ dumpItems ind xs

/-- Remaining object members and the closing brace. -/
def dumpMembers : Nat → List (PyStr × Json) → PyStr
  | ind, [] => '\n' :: pad ind ++ ['\x7d']
  | ind, (k, v) :: ms =>
    ',' :: '\n' :: pad (ind + 2) ++ encodeStr k ++ ':' :: ' ' ::
      dumpVal (ind + 2) v ++ dumpMembers ind ms

end

/-- The serialized file content written on line 158 of the script. -/
def dumps (v : Json) : PyStr := dumpVal 0 v

def nodupKeys : List PyStr → Bool
  | [] => true
  | k :: ks => !ks.contains k && nodupKeys ks

mutual

/-- Values representable by a CPython `json.loads` result: every object has
pairwise-distinct keys (`dict` semantics collapse duplicates). -/
def wfJson : Json → Bool
  | .null => true
  | .bool _ => true
  | .num _ => true
  | .str _ => true
  | .arr xs => wfList xs
  | .obj ms => nodupKeys (ms.map Prod.fst) && wfMembers ms

def wfList : List Json → Bool
  | [] => true
  | x :: xs => wfJson x && wfList xs

def wfMembers : List (PyStr × Json) → Bool
  | [] => true
  | (_, v) :: ms => wfJson v && wfMembers ms

end

mutual

/-- Fuel needed by `parseVal` to consume the serialization of a value. -/
def jsize : Json → Nat
  | .null => 1
  | .bool _ => 1
  | .num _ => 1
  | .str s => s.length + 2
  | .arr xs => 1 + lsize xs
  | .obj ms => 1 + msize ms

def lsize : List Json → Nat
  | [] => 1
  | x :: xs => 1 + jsize x + lsize xs

def msize : List (PyStr × Json) → Nat
  | [] => 1
  | (k, v) :: ms => 1 + (k.length + 2) + jsize v + msize ms

end

/-- Contexts a serialized value is followed by inside `dumps` output: the
end of input, a separating comma, or the newline before a closing bracket. -/
def delim (rest : PyStr) : Prop :=
  match rest with
  | [] => True
  | c :: _ => c = ',' ∨ c = '\n'

/-- The `Note` Pydantic model (lines 20-25): `id` an integer in `[1, 10]`,
`heading` a string of length at most 100, `summary` a string of length at
most 150, `page_ref` an optional integer. -/
structure Note where
  id : Int
  heading : PyStr
  summary : PyStr
  page_ref : Option Int
deriving DecidableEq

/-- First matching key of a parsed JSON object (keys are unique after
`loads`, which applies dict semantics). -/
def lookupKey (k : PyStr) : List (PyStr × Json) → Option Json
  | [] => none
  | (k', v) :: t => if k' = k then some v else lookupKey k t

/-- Pydantic validation of one `Note` from a parsed JSON value: required
fields of the declared types within the `Field` bounds, `page_ref`
absent/null/integer, unknown keys ignored (`BaseModel` default
`extra='ignore'`).  On success the field values are taken over verbatim. -/
def validateNote (j : Json) : Option Note :=
  match j with
  | .obj fields =>
    match lookupKey (chars "id") fields, lookupKey (chars "heading") fields,
        lookupKey (chars "summary") fields with
    | some (.num i), some (.str h), some (.str m) =>
      if 1 ≤ i ∧ i ≤ 10 ∧ h.length ≤ 100 ∧ m.length ≤ 150 then
        match lookupKey (chars "page_ref") fields with
        | none => some ⟨i, h, m, none⟩
        | some .null => some ⟨i, h, m, none⟩
        | some (.num p) => some ⟨i, h, m, some p⟩
        | some _ => none
      else none
    | _, _, _ => none
  | _ => none

def validateAll : List Json → Option (List Note)
  | [] => some []
  | x :: xs =>
    match validateNote x, validateAll xs with
    | some n, some ns => some (n :: ns)
    | _, _ => none

/-- `NotesResponse(**data)` (lines 27-29): `data` must be a mapping whose
`notes` entry is a list of exactly 10 valid notes (`min_length=10,
max_length=10`); unknown keys are ignored.  Returns the `.notes` list the
script hands back to the caller. -/
def notesResponse (j : Json) : Option (List Note) :=
  match j with
  | .obj fields =>
    match lookupKey (chars "notes") fields with
    | some (.arr xs) => if xs.length = 10 then validateAll xs else none
    | _ => none
  | _ => none

/-- Fate of the `open(output_file, 'w')` + `json.dump` on lines 157-158:
either both complete, or `open` itself raises (the destination is never
touched), or the streaming dump raises after `k` characters have reached
the file — e.g. a `UnicodeEncodeError` on a lone surrogate inside an
ignored extra key, or a full disk. -/
inductive WriteOutcome where
  | ok
  | failOpen
  | failStream (k : Nat)
deriving DecidableEq

/-- Effect of one run on the destination file.  `open(..., 'w')` truncates
the file as soon as it succeeds and `json.dump` then streams into it, so a
dump that raises mid-stream leaves the partial prefix behind
(`complete = false`); `untouched` means the file was never opened. -/
inductive FileEffect where
  | untouched
  | wrote (path : PyStr) (content : PyStr) (complete : Bool)
deriving DecidableEq

/-- Observable outcome of one `validate_and_save_notes` run: the Python
return value (`notes_response.notes` on success, `None` on any failure) and
the effect on the destination file. -/
structure RunResult where
  result : Option (List Note)
  fileEffect : FileEffect
deriving DecidableEq

/-- `validate_and_save_notes` (lines 124-182).  A parse or validation
failure is caught before the file is ever opened; a write failure is caught
by the generic `except Exception` on line 179, which returns `None` but
cannot undo the truncation already performed by `open(..., 'w')` nor remove
the prefix `json.dump` streamed before raising. -/
def validate_and_save_notes (notes_json_str : PyStr) (output_file : PyStr)
    (w : WriteOutcome) : RunResult :=
  let cleaned_json := sanitize notes_json_str
  match loads cleaned_json with
  | none => ⟨none, .untouched⟩
  | some data =>
    match notesResponse data with
    | none => ⟨none, .untouched⟩
    | some notes =>
      match w with
      | .ok => ⟨some notes, .wrote output_file (dumps data) true⟩
      | .failOpen => ⟨none, .untouched⟩
      | .failStream k => ⟨none, .wrote output_file ((dumps data).take k) false⟩

/-- A raw JSON mapping for one note with the three required fields and
`page_ref` present or absent according to `p`. -/
def mkNoteJson (i : Int) (h m : PyStr) (p : Option Int) : Json :=
  .obj ([(chars "id", .num i), (chars "heading", .str h), (chars "summary", .str m)] ++
    (match p with
     | none => []
     | some n => [(chars "page_ref", .num n)]))

def sampleNoteJson (i : Nat) : Json :=
  .obj [(chars "id", .num i), (chars "heading", .str (chars "h")),
        (chars "summary", .str (chars "s"))]

def sampleData : Json :=
  .obj [(chars "notes", .arr ((List.range 10).map fun i => sampleNoteJson (i + 1)))]

def sampleNote (i : Nat) : Note := ⟨i, chars "h", chars "s", none⟩

def sampleNotes : List Note := (List.range 10).map fun i => sampleNote (i + 1)

/-- Ten valid notes plus a key that is not part of the schema. -/
def extraFields : List (PyStr × Json) :=
  [(chars "notes", .arr ((List.range 10).map fun i => sampleNoteJson (i + 1))),
   (chars "extra", .str (chars "kept"))]

def extraData : Json := .obj extraFields

/-- `"```json\n" + interior + "\n```"`: a fenced block tagged `json`. -/
def fenceWrapJson (I : PyStr) : PyStr :=
  fenceJsonPat ++ ('\n' :: I) ++ ('\n' :: fencePat)

/-- `"```\n" + interior + "\n```"`: an untagged fenced block. -/
def fenceWrapBare (I : PyStr) : PyStr :=
  fencePat ++ ('\n' :: I) ++ ('\n' :: fencePat)

/-- Ten individually valid notes, two of which share `id = 1`. -/
def dupData : Json :=
  .obj [(chars "notes",
    .arr (sampleNoteJson 1 :: sampleNoteJson 1 ::
      ((List.range 8).map fun i => sampleNoteJson (i + 2))))]

def dupNotes : List Note :=
  sampleNote 1 :: sampleNote 1 :: ((List.range 8).map fun i => sampleNote (i + 2))

theorem lstrip_cons_of_not {c : Char} {t : PyStr} (h : pySpace c = false) :
    lstrip (c :: t) = c :: t := by
  simp [lstrip, List.dropWhile_cons, h]

theorem rstrip_append_of_not {s : PyStr} {c : Char} (h : pySpace c = false) :
    rstrip (s ++ [c]) = s ++ [c] := by
  simp [rstrip, List.reverse_append, List.dropWhile_cons, h]

theorem lstrip_of_pyStrip_eq {s : PyStr} (h : pyStrip s = s) : lstrip s = s := by
  have h1 : (lstrip s).length ≤ s.length := (List.dropWhile_suffix (l := s) pySpace).sublist.length_le
  have h2 : (rstrip (lstrip s)).length ≤ (lstrip s).length := by
    simpa [rstrip] using (List.dropWhile_suffix (l := (lstrip s).reverse) pySpace).sublist.length_le
  have hlen : (lstrip s).length = s.length := by
    have := congrArg List.length h
    simp only [pyStrip] at this
    omega
  exact List.IsSuffix.eq_of_length (List.dropWhile_suffix pySpace) hlen

theorem rstrip_of_pyStrip_eq {s : PyStr} (h : pyStrip s = s) : rstrip s = s := by
  have hl := lstrip_of_pyStrip_eq h
  calc rstrip s = rstrip (lstrip s) := by rw [hl]
    _ = s := h

theorem dropWhile_reverse_of_rstrip_eq {s : PyStr} (h : rstrip s = s) :
    s.reverse.dropWhile pySpace = s.reverse := by
  have := congrArg List.reverse h
  simpa [rstrip] using this

/-- Stripping the separator newlines the sanitizer's slice keeps around the
interior of a fenced block recovers the (already trimmed) interior. -/
theorem pyStrip_newline_wrap {I : PyStr} (h : pyStrip I = I) :
    pyStrip ('\n' :: (I ++ ['\n'])) = I := by
  cases I with
  | nil => decide
  | cons c t =>
    have hc : pySpace c = false := by
      have hl := lstrip_of_pyStrip_eq h
      by_contra hcc
      simp only [Bool.not_eq_false] at hcc
      simp only [lstrip, List.dropWhile_cons, hcc, if_true] at hl
      have := (List.dropWhile_suffix (l := t) pySpace).sublist.length_le
      have := congrArg List.length hl
      simp at this
      omega
    have hrev : (c :: t).reverse.dropWhile pySpace = (c :: t).reverse :=
      dropWhile_reverse_of_rstrip_eq (rstrip_of_pyStrip_eq h)
    have hnl : pySpace '\n' = true := by decide
    have step1 : lstrip ('\n' :: ((c :: t) ++ ['\n'])) = (c :: t) ++ ['\n'] := by
      simp only [lstrip, List.dropWhile_cons, hnl, if_true, List.cons_append, hc,
        Bool.false_eq_true, if_false]
    have step2 : rstrip ((c :: t) ++ ['\n']) = c :: t := by
      have hsh : ((c :: t) ++ ['\n']).reverse = '\n' :: (c :: t).reverse := by
        simp
      simp only [rstrip, hsh, List.dropWhile_cons, hnl, if_true, hrev,
        List.reverse_reverse]
    calc pyStrip ('\n' :: ((c :: t) ++ ['\n']))
        = rstrip (lstrip ('\n' :: ((c :: t) ++ ['\n']))) := rfl
      _ = rstrip ((c :: t) ++ ['\n']) := by rw [step1]
      _ = c :: t := step2

theorem rfindOpt_append_fence : ∀ X : PyStr,
    rfindOpt fencePat (X ++ fencePat) = some X.length
  | [] => by decide
  | c :: X => by
    show rfindOpt fencePat (c :: (X ++ fencePat)) = some (X.length + 1)
    rw [rfindOpt, rfindOpt_append_fence X]

theorem validateAll_isSome {xs : List Json} (h : ∀ x ∈ xs, (validateNote x).isSome) :
    (validateAll xs).isSome := by
  induction xs with
  | nil => simp [validateAll]
  | cons x t ih =>
    have hx := h x (by simp)
    have ht := ih fun y hy => h y (by simp [hy])
    rw [validateAll]
    rcases Option.isSome_iff_exists.mp hx with ⟨n, hn⟩
    rcases Option.isSome_iff_exists.mp ht with ⟨ns, hns⟩
    simp [hn, hns]

theorem validateAll_mem {xs : List Json} {ns : List Note} (h : validateAll xs = some ns) :
    ∀ n ∈ ns, ∃ x ∈ xs, validateNote x = some n := by
  induction xs generalizing ns with
  | nil =>
    simp [validateAll] at h
    subst h
    simp
  | cons x t ih =>
    rw [validateAll] at h
    rcases hx : validateNote x with _ | n₀ <;> rw [hx] at h
    · exact absurd h (by simp)
    · rcases ht : validateAll t with _ | ns₀ <;> rw [ht] at h
      · exact absurd h (by simp)
      · simp only [Option.some_inj] at h
        subst h
        intro n hn
        rcases List.mem_cons.mp hn with rfl | hmem
        · exact ⟨x, by simp, hx⟩
        · rcases ih ht n hmem with ⟨y, hy, hvy⟩
          exact ⟨y, by simp [hy], hvy⟩

theorem validateNote_some_bounds {j : Json} {n : Note} (h : validateNote j = some n) :
    1 ≤ n.id ∧ n.id ≤ 10 ∧ n.heading.length ≤ 100 ∧ n.summary.length ≤ 150 := by
  unfold validateNote at h
  split at h
  · split at h
    · split at h
      · rename_i hb
        split at h <;>
          first
          | (injection h with h; subst h; exact ⟨hb.1, hb.2.1, hb.2.2.1, hb.2.2.2⟩)
          | simp at h
      · exact absurd h (by simp)
    · exact absurd h (by simp)
  · exact absurd h (by simp)

/-- C2 counterexample: a candidate collection of ten individually valid
notes in which two notes share `id = 1` is accepted by the validating
constructor, contradicting the claim that it is rejected; the accepted
collection's ids are not pairwise distinct. -/
theorem duplicate_ids_accepted :
    notesResponse dupData = some dupNotes ∧ ¬ (dupNotes.map Note.id).Nodup :=
  ⟨rfl, by decide⟩

/-- C2 (amended): every note in a collection accepted by the validating
constructor has an id in `[1, 10]`, but pairwise distinctness of ids is not
checked: duplicates pass validation. -/
theorem validated_ids_in_range (j : Json) (ns : List Note)
    (hv : notesResponse j = some ns) : ∀ n ∈ ns, 1 ≤ n.id ∧ n.id ≤ 10 := by
  intro n hn
  unfold notesResponse at hv
  split at hv
  · split at hv
    · split at hv
      · rcases validateAll_mem hv n hn with ⟨x, _, hx⟩
        have := validateNote_some_bounds hx
        exact ⟨this.1, this.2.1⟩
      · exact absurd hv (by simp)
    · exact absurd hv (by simp)
  · exact absurd hv (by simp)

theorem validated_ids_in_range_witness :
    1 ≤ (sampleNote 1).id ∧ (sampleNote 1).id ≤ 10 :=
  validated_ids_in_range sampleData sampleNotes rfl (sampleNote 1) (by decide)

/-- C4: the `NotesResponse` constructor rejects a `notes` list whose length
differs from 10 regardless of the entries, and accepts a list of exactly 10
entries that each validate as a `Note`. -/
theorem cardinality_exactly_ten (xs : List Json) :
    (xs.length ≠ 10 → notesResponse (Json.obj [(chars "notes", Json.arr xs)]) = none) ∧
    (xs.length = 10 → (∀ x ∈ xs, (validateNote x).isSome) →
      (notesResponse (Json.obj [(chars "notes", Json.arr xs)])).isSome) := by
  constructor
  · intro hlen
    simp [notesResponse, lookupKey, hlen]
  · intro hlen hall
    simp only [notesResponse, lookupKey, if_pos rfl, hlen, if_true]
    exact validateAll_isSome hall

theorem cardinality_exactly_ten_witness :
    (notesResponse (Json.obj [(chars "notes",
        Json.arr ((List.range 9).map fun i => sampleNoteJson (i + 1)))]) = none) ∧
    (notesResponse (Json.obj [(chars "notes",
        Json.arr ((List.range 10).map fun i => sampleNoteJson (i + 1)))])).isSome :=
  ⟨(cardinality_exactly_ten ((List.range 9).map fun i => sampleNoteJson (i + 1))).1
      (by decide),
   (cardinality_exactly_ten ((List.range 10).map fun i => sampleNoteJson (i + 1))).2
      (by decide) (by decide)⟩

/-- C5: constructing a `Note` from in-bound field values succeeds and keeps
every field value unchanged (no coercion); an out-of-bound id, an oversized
heading or summary, or a missing required field is rejected. -/
theorem note_field_bounds (i : Int) (h m : PyStr) (p : Option Int) :
    (1 ≤ i → i ≤ 10 → h.length ≤ 100 → m.length ≤ 150 →
      validateNote (mkNoteJson i h m p) = some ⟨i, h, m, p⟩) ∧
    ((i < 1 ∨ 10 < i ∨ 100 < h.length ∨ 150 < m.length) →
      validateNote (mkNoteJson i h m p) = none) ∧
    (∀ fields, lookupKey (chars "id") fields = none →
      validateNote (.obj fields) = none) ∧
    (∀ fields, lookupKey (chars "heading") fields = none →
      validateNote (.obj fields) = none) ∧
    (∀ fields, lookupKey (chars "summary") fields = none →
      validateNote (.obj fields) = none) := by
  refine ⟨?_, ?_, ?_, ?_, ?_⟩
  · intro h1 h2 h3 h4
    cases p <;>
      simp [validateNote, mkNoteJson, lookupKey, chars, h1, h2, h3, h4]
  · intro hbad
    have hcond : ¬ (1 ≤ i ∧ i ≤ 10 ∧ h.length ≤ 100 ∧ m.length ≤ 150) := by
      rcases hbad with h' | h' | h' | h' <;> omega
    cases p <;>
      simp [validateNote, mkNoteJson, lookupKey, chars, hcond]
  · intro fields hmiss
    simp [validateNote, hmiss]
  · intro fields hmiss
    simp [validateNote, hmiss]
  · intro fields hmiss
    simp [validateNote, hmiss]

/-- C1 counterexample: a malformed-JSON input, a schema-violating input and
a failed write (a failing `open`, or a dump that raises mid-stream) on a
fully valid input all make the Python function return `None` — the failure
kinds are not surfaced to the caller as distinct inspectable outcomes. -/
theorem failure_outcomes_not_distinct :
    validate_and_save_notes (chars "not json at all") (chars "exam_notes.json") .ok =
      validate_and_save_notes (chars "\x7b\"notes\": []\x7d") (chars "exam_notes.json") .ok ∧
    loads (sanitize (chars "not json at all")) = none ∧
    (loads (sanitize (chars "\x7b\"notes\": []\x7d"))).isSome = true ∧
    validate_and_save_notes (dumps sampleData) (chars "exam_notes.json") .failOpen =
      validate_and_save_notes (chars "not json at all") (chars "exam_notes.json") .ok ∧
    (validate_and_save_notes (dumps sampleData) (chars "exam_notes.json")
        (.failStream 5)).result = none ∧
    (loads (sanitize (dumps sampleData))).isSome = true ∧
    (notesResponse sampleData).isSome = true ∧
    (validate_and_save_notes (chars "not json at all") (chars "exam_notes.json") .ok).result
      = none :=
  ⟨rfl, rfl, rfl, rfl, rfl, rfl, rfl, rfl⟩

/-- C1 (amended): on success `validate_and_save_notes` returns the validated
notes list; on any failure — malformed JSON, schema violation, or a failed
write — it returns `None`, the same uninspectable outcome for every failure
kind (diagnostics appear only on the console). -/
theorem validate_and_save_return_contract (s out : PyStr) (w : WriteOutcome) :
    ((validate_and_save_notes s out w).result.isSome →
      ∃ d, loads (sanitize s) = some d ∧
        notesResponse d = (validate_and_save_notes s out w).result ∧
        w = .ok) ∧
    (loads (sanitize s) = none →
      (validate_and_save_notes s out w).result = none) ∧
    (∀ d, loads (sanitize s) = some d → notesResponse d = none →
      (validate_and_save_notes s out w).result = none) ∧
    (¬ (w = .ok) →
      (validate_and_save_notes s out w).result = none) := by
  rcases hl : loads (sanitize s) with _ | d
  · refine ⟨?_, ?_, ?_, ?_⟩ <;> simp [validate_and_save_notes, hl]
  · rcases hv : notesResponse d with _ | ns
    · refine ⟨?_, ?_, ?_, ?_⟩ <;> simp [validate_and_save_notes, hl, hv]
    · cases w
      · refine ⟨?_, ?_, ?_, ?_⟩ <;> simp [validate_and_save_notes, hl, hv]
      · refine ⟨?_, ?_, ?_, ?_⟩ <;> simp [validate_and_save_notes, hl, hv]
      · refine ⟨?_, ?_, ?_, ?_⟩ <;> simp [validate_and_save_notes, hl, hv]

theorem validate_and_save_return_contract_witness :
    (validate_and_save_notes (chars "x") (chars "o") .ok).result = none :=
  (validate_and_save_return_contract (chars "x") (chars "o") WriteOutcome.ok).2.1 rfl

/-- C3 counterexample: on a fully valid input (it parses and validates), a
dump that raises after streaming 5 characters leaves the destination file
holding the non-empty proper prefix `\x7b␤␣␣"` of the serialized data, with
`complete = false` — a partial, truncated file left behind by a failed run.
`open(output_file, 'w')` (line 157) truncates the file before `json.dump`
(line 158) streams into it, and the `except` on line 179 only returns
`None`; nothing removes the partial content, so persistence is not
all-or-nothing. -/
theorem partial_file_on_failed_write :
    validate_and_save_notes (dumps sampleData) (chars "exam_notes.json")
        (.failStream 5) =
      ⟨none, .wrote (chars "exam_notes.json") ((dumps sampleData).take 5) false⟩ ∧
    (dumps sampleData).take 5 = chars "\x7b\n  \"" ∧
    (dumps sampleData).take 5 ≠ dumps sampleData ∧
    (loads (sanitize (dumps sampleData))).isSome = true ∧
    (notesResponse sampleData).isSome = true :=
  ⟨rfl, rfl, by decide, rfl, rfl⟩

/-- C3 (amended): the destination file is untouched when the parse or the
schema validation fails — those exceptions are raised before the file is
opened — and on a fully successful run exactly one complete write of the
serialized data reaches the destination path.  But persistence is not
all-or-nothing: `open(output_file, 'w')` truncates the file as soon as it
succeeds and `json.dump` then streams into it, so a dump that raises after
`k` characters leaves a partial, truncated file behind on a failed run. -/
theorem file_effect_contract (s out : PyStr) (w : WriteOutcome) :
    (loads (sanitize s) = none →
      (validate_and_save_notes s out w).fileEffect = .untouched) ∧
    (∀ d, loads (sanitize s) = some d → notesResponse d = none →
      (validate_and_save_notes s out w).fileEffect = .untouched) ∧
    (∀ d ns, loads (sanitize s) = some d → notesResponse d = some ns →
      (w = .ok →
        (validate_and_save_notes s out w).fileEffect = .wrote out (dumps d) true) ∧
      (w = .failOpen →
        (validate_and_save_notes s out w).fileEffect = .untouched) ∧
      (∀ k, w = .failStream k →
        (validate_and_save_notes s out w).fileEffect =
          .wrote out ((dumps d).take k) false)) := by
  refine ⟨?_, ?_, ?_⟩
  · intro hl
    simp [validate_and_save_notes, hl]
  · intro d hl hv
    simp [validate_and_save_notes, hl, hv]
  · intro d ns hl hv
    refine ⟨?_, ?_, ?_⟩
    · rintro rfl
      simp [validate_and_save_notes, hl, hv]
    · rintro rfl
      simp [validate_and_save_notes, hl, hv]
    · rintro k rfl
      simp [validate_and_save_notes, hl, hv]

theorem file_effect_contract_witness :
    (validate_and_save_notes (dumps sampleData) (chars "exam_notes.json")
        WriteOutcome.ok).fileEffect =
      FileEffect.wrote (chars "exam_notes.json") (dumps sampleData) true ∧
    (validate_and_save_notes (chars "\x7b\"notes\": []\x7d") (chars "o")
        WriteOutcome.ok).fileEffect = FileEffect.untouched :=
  ⟨((file_effect_contract (dumps sampleData) (chars "exam_notes.json")
        WriteOutcome.ok).2.2 sampleData sampleNotes rfl rfl).1 rfl,
   (file_effect_contract (chars "\x7b\"notes\": []\x7d") (chars "o")
        WriteOutcome.ok).2.1 (.obj [(chars "notes", .arr [])]) rfl rfl⟩

/-- C10: on success the file content is the serialization of the raw parsed
JSON value `d` (the dict produced by `json.loads`), not a re-serialization
of the validated model — so keys outside the schema survive into the file. -/
theorem raw_parsed_json_persisted (s out : PyStr) (d : Json) (ns : List Note)
    (hl : loads (sanitize s) = some d) (hv : notesResponse d = some ns) :
    validate_and_save_notes s out .ok = ⟨some ns, .wrote out (dumps d) true⟩ := by
  simp [validate_and_save_notes, hl, hv]

theorem raw_parsed_json_persisted_witness :
    validate_and_save_notes (dumps extraData) (chars "exam_notes.json")
        WriteOutcome.ok =
      ⟨some sampleNotes, .wrote (chars "exam_notes.json") (dumps extraData) true⟩ ∧
    (lookupKey (chars "extra") extraFields).isSome = true :=
  ⟨raw_parsed_json_persisted (dumps extraData) (chars "exam_notes.json") extraData
      sampleNotes rfl rfl,
   rfl⟩

theorem note_field_bounds_witness :
    validateNote (mkNoteJson 3 (chars "h") (chars "s") (some 4)) =
        some ⟨3, chars "h", chars "s", some 4⟩ ∧
    validateNote (mkNoteJson 0 (chars "h") (chars "s") none) = none ∧
    validateNote (mkNoteJson 11 (chars "h") (chars "s") none) = none ∧
    validateNote (mkNoteJson 1 (chars "h") (List.replicate 151 'x') none) = none ∧
    validateNote (.obj [(chars "heading", .str (chars "h")),
        (chars "summary", .str (chars "s"))]) = none :=
  ⟨(note_field_bounds 3 (chars "h") (chars "s") (some 4)).1
      (by decide) (by decide) (by decide) (by decide),
   (note_field_bounds 0 (chars "h") (chars "s") none).2.1 (by omega),
   (note_field_bounds 11 (chars "h") (chars "s") none).2.1 (by omega),
   (note_field_bounds 1 (chars "h") (List.replicate 151 'x') none).2.1
      (by right; right; right; simp),
   (note_field_bounds 1 (chars "h") (chars "s") none).2.2.1
      [(chars "heading", .str (chars "h")), (chars "summary", .str (chars "s"))]
      rfl⟩

theorem isPrefixOf_append_self (p r : PyStr) : p.isPrefixOf (p ++ r) = true :=
  List.isPrefixOf_iff_prefix.mpr ⟨r, rfl⟩

theorem pyFind_of_isPrefixOf {p s : PyStr} (h : p.isPrefixOf s = true) :
    pyFind p s = 0 := by
  rw [pyFind, findFrom.eq_def]
  simp [h]

theorem startswith_fence_of_json {s : PyStr}
    (h : pyStartswith fenceJsonPat s = true) : pyStartswith fencePat s = true := by
  rw [pyStartswith, List.isPrefixOf_iff_prefix] at h ⊢
  exact List.IsPrefix.trans ⟨['j', 's', 'o', 'n'], rfl⟩ h

theorem findFrom_brace_none {s : PyStr} (h : '\x7b' ∉ s) :
    ∀ i, findFrom bracePat s i = none := by
  induction s with
  | nil =>
    intro i
    rw [findFrom.eq_def]
    simp [bracePat, List.isPrefixOf]
  | cons c t ih =>
    intro i
    have hc : ¬ ('\x7b' = c) := fun hcc => h (by simp [← hcc])
    have hpre : bracePat.isPrefixOf (c :: t) = false := by
      simp [bracePat, List.isPrefixOf, hc]
    rw [findFrom.eq_def]
    dsimp only
    rw [hpre]
    simp only [Bool.false_eq_true, if_false]
    exact ih (fun hm => h (List.mem_cons_of_mem _ hm)) (i + 1)

theorem pyFind_brace_of_not_mem {s : PyStr} (h : '\x7b' ∉ s) :
    pyFind bracePat s = -1 := by
  rw [pyFind, findFrom_brace_none h 0]

theorem pyRfind_append_fence (X : PyStr) :
    pyRfind fencePat (X ++ fencePat) = (X.length : Int) := by
  rw [pyRfind, rfindOpt_append_fence X]

/-- C7 counterexample: `[1, \x7b\x7d]` is well-formed JSON with no
surrounding whitespace, fences, or leading prose, yet the sanitizer is not a
no-op on it: the brace-scan truncates everything before the first `\x7b`. -/
theorem clean_json_mangled :
    loads (chars "[1, \x7b\x7d]") = some (.arr [.num 1, .obj []]) ∧
    pyStrip (chars "[1, \x7b\x7d]") = chars "[1, \x7b\x7d]" ∧
    pyStartswith fencePat (chars "[1, \x7b\x7d]") = false ∧
    sanitize (chars "[1, \x7b\x7d]") ≠ chars "[1, \x7b\x7d]" ∧
    sanitize (chars "[1, \x7b\x7d]") = chars "\x7b\x7d]" :=
  ⟨rfl, rfl, rfl, by decide, by decide⟩

/-- C7 (amended): the sanitizer is a no-op on clean JSON text whose first
`\x7b`, if any, is at position 0 (in particular on every JSON object and on
brace-free JSON); clean JSON with a later first `\x7b` is truncated to that
brace. -/
theorem sanitize_noop_on_clean_json (s : PyStr) (v : Json)
    (hjson : loads s = some v) (hstrip : pyStrip s = s)
    (hfence : pyStartswith fencePat s = false)
    (hbrace : pyFind bracePat s ≤ 0) :
    sanitize s = s := by
  have hfj : pyStartswith fenceJsonPat s = false := by
    by_contra hcc
    rw [Bool.not_eq_false] at hcc
    rw [startswith_fence_of_json hcc] at hfence
    exact absurd hfence (by simp)
  show (let cleaned := pyStrip s
        let cleaned :=
          if pyStartswith fenceJsonPat cleaned then
            let start_idx := pyFind fenceJsonPat cleaned + 7
            let end_idx := pyRfind fencePat cleaned
            if end_idx > start_idx then pyStrip (pySlice cleaned start_idx end_idx)
            else cleaned
          else if pyStartswith fencePat cleaned then
            let start_idx := pyFind fencePat cleaned + 3
            let end_idx := pyRfind fencePat cleaned
            if end_idx > start_idx then pyStrip (pySlice cleaned start_idx end_idx)
            else cleaned
          else cleaned
        if pyFind bracePat cleaned > 0 then pySliceFrom cleaned (pyFind bracePat cleaned)
        else cleaned) = s
  simp only [hstrip, hfj, hfence, Bool.false_eq_true, if_false]
  rw [if_neg (by omega)]

theorem sanitize_noop_on_clean_json_witness :
    sanitize (chars "\x7b\"a\": 1\x7d") = chars "\x7b\"a\": 1\x7d" :=
  sanitize_noop_on_clean_json (chars "\x7b\"a\": 1\x7d")
    (.obj [(chars "a", .num 1)]) rfl rfl rfl (by decide)

/-- C9 counterexample: the brace-free input `` ```x``` `` is not passed
through unchanged (the fence-stripping fires), and on the brace-free input
`42` the sanitizer is the identity but the downstream parse succeeds
(`json.loads("42")` is the number 42) instead of failing as MalformedJSON. -/
theorem no_brace_passthrough_cex :
    ('\x7b' ∉ chars "```x```") ∧
    sanitize (chars "```x```") ≠ chars "```x```" ∧
    ('\x7b' ∉ chars "42") ∧
    sanitize (chars "42") = chars "42" ∧
    loads (sanitize (chars "42")) = some (.num 42) ∧
    (validate_and_save_notes (chars "42") (chars "o") WriteOutcome.ok).fileEffect =
      FileEffect.untouched :=
  ⟨by decide, by decide, by decide, by decide, rfl, rfl⟩

/-- C9 (amended): a brace-free input that is already trimmed and does not
start with a code fence passes through the sanitizer unchanged, and whenever
the downstream parse of such an input fails the run returns `None` with no
file written.  (A brace-free input can still be altered by trimming or
fence-stripping, and can still parse as non-object JSON such as `42`.) -/
theorem no_brace_passthrough (s out : PyStr)
    (hnb : '\x7b' ∉ s) (hstrip : pyStrip s = s)
    (hfence : pyStartswith fencePat s = false) :
    sanitize s = s ∧
    (loads s = none → ∀ w, validate_and_save_notes s out w = ⟨none, .untouched⟩) := by
  have hfind : pyFind bracePat s = -1 := pyFind_brace_of_not_mem hnb
  have hfj : pyStartswith fenceJsonPat s = false := by
    by_contra hcc
    rw [Bool.not_eq_false] at hcc
    rw [startswith_fence_of_json hcc] at hfence
    exact absurd hfence (by simp)
  have hid : sanitize s = s := by
    show (let cleaned := pyStrip s
          let cleaned :=
            if pyStartswith fenceJsonPat cleaned then
              let start_idx := pyFind fenceJsonPat cleaned + 7
              let end_idx := pyRfind fencePat cleaned
              if end_idx > start_idx then pyStrip (pySlice cleaned start_idx end_idx)
              else cleaned
            else if pyStartswith fencePat cleaned then
              let start_idx := pyFind fencePat cleaned + 3
              let end_idx := pyRfind fencePat cleaned
              if end_idx > start_idx then pyStrip (pySlice cleaned start_idx end_idx)
              else cleaned
            else cleaned
          if pyFind bracePat cleaned > 0 then
            pySliceFrom cleaned (pyFind bracePat cleaned)
          else cleaned) = s
    simp only [hstrip, hfj, hfence, Bool.false_eq_true, if_false]
    rw [if_neg (by rw [hfind]; omega)]
  refine ⟨hid, fun hl w => ?_⟩
  rw [validate_and_save_notes, hid, hl]

theorem no_brace_passthrough_witness :
    sanitize (chars "not json at all") = chars "not json at all" ∧
    validate_and_save_notes (chars "not json at all") (chars "o") WriteOutcome.ok =
      ⟨none, FileEffect.untouched⟩ := by
  have h := no_brace_passthrough (chars "not json at all") (chars "o")
    (by decide) (by decide) (by decide)
  exact ⟨h.1, h.2 rfl WriteOutcome.ok⟩

/-- C6 counterexample: for the trimmed fenced block
`` ```python\nhello\n``` `` (language tag `python`, interior `hello`) the
sanitizer returns `python\nhello`: the fences are removed but the language
tag is not, so the output is not the interior of the block. -/
theorem language_tag_not_stripped :
    sanitize (chars "```python\nhello\n```") = chars "python\nhello" ∧
    sanitize (chars "```python\nhello\n```") ≠ chars "hello" :=
  ⟨by decide, by decide⟩

theorem pyStrip_fenceWrapJson {I : PyStr} :
    pyStrip (fenceWrapJson I) = fenceWrapJson I := by
  have h1 : lstrip (fenceWrapJson I) = fenceWrapJson I := by
    have hsh : fenceWrapJson I =
        '`' :: (['`', '`', 'j', 's', 'o', 'n'] ++ (('\n' :: I) ++ ('\n' :: fencePat))) := by
      simp [fenceWrapJson, fenceJsonPat, List.append_assoc]
    rw [hsh]
    exact lstrip_cons_of_not (by decide)
  have h2 : rstrip (fenceWrapJson I) = fenceWrapJson I := by
    have hsh : fenceWrapJson I =
        (fenceJsonPat ++ ('\n' :: I) ++ ['\n', '`', '`']) ++ ['`'] := by
      simp [fenceWrapJson, fencePat, List.append_assoc]
    rw [hsh]
    exact rstrip_append_of_not (by decide)
  calc pyStrip (fenceWrapJson I) = rstrip (lstrip (fenceWrapJson I)) := rfl
    _ = rstrip (fenceWrapJson I) := by rw [h1]
    _ = fenceWrapJson I := h2

theorem pyStrip_fenceWrapBare {I : PyStr} :
    pyStrip (fenceWrapBare I) = fenceWrapBare I := by
  have h1 : lstrip (fenceWrapBare I) = fenceWrapBare I := by
    have hsh : fenceWrapBare I =
        '`' :: (['`', '`'] ++ (('\n' :: I) ++ ('\n' :: fencePat))) := by
      simp [fenceWrapBare, fencePat, List.append_assoc]
    rw [hsh]
    exact lstrip_cons_of_not (by decide)
  have h2 : rstrip (fenceWrapBare I) = fenceWrapBare I := by
    have hsh : fenceWrapBare I =
        (fencePat ++ ('\n' :: I) ++ ['\n', '`', '`']) ++ ['`'] := by
      simp [fenceWrapBare, fencePat, List.append_assoc]
    rw [hsh]
    exact rstrip_append_of_not (by decide)
  calc pyStrip (fenceWrapBare I) = rstrip (lstrip (fenceWrapBare I)) := rfl
    _ = rstrip (fenceWrapBare I) := by rw [h1]
    _ = fenceWrapBare I := h2

theorem fenceWrapJson_split (I : PyStr) :
    fenceWrapJson I = fenceJsonPat ++ (('\n' :: I) ++ ('\n' :: fencePat)) := by
  simp [fenceWrapJson, List.append_assoc]

theorem fenceWrapBare_split (I : PyStr) :
    fenceWrapBare I = fencePat ++ (('\n' :: I) ++ ('\n' :: fencePat)) := by
  simp [fenceWrapBare, List.append_assoc]

theorem startswith_fenceJson_wrapJson (I : PyStr) :
    pyStartswith fenceJsonPat (fenceWrapJson I) = true := by
  rw [pyStartswith, fenceWrapJson_split]
  exact isPrefixOf_append_self _ _

theorem startswith_fence_wrapBare (I : PyStr) :
    pyStartswith fencePat (fenceWrapBare I) = true := by
  rw [pyStartswith, fenceWrapBare_split]
  exact isPrefixOf_append_self _ _

theorem not_startswith_fenceJson_wrapBare (I : PyStr) :
    pyStartswith fenceJsonPat (fenceWrapBare I) = false := by
  have hsh : fenceWrapBare I =
      '`' :: '`' :: '`' :: '\n' :: (I ++ ('\n' :: fencePat)) := by
    simp [fenceWrapBare, fencePat, List.append_assoc]
  rw [pyStartswith, hsh]
  simp [fenceJsonPat, List.isPrefixOf]

theorem pyRfind_wrapJson (I : PyStr) :
    pyRfind fencePat (fenceWrapJson I) = ((9 + I.length : Nat) : Int) := by
  have hsh : fenceWrapJson I = (fenceJsonPat ++ ('\n' :: I) ++ ['\n']) ++ fencePat := by
    simp [fenceWrapJson, fencePat, List.append_assoc]
  rw [hsh, pyRfind_append_fence]
  simp [fenceJsonPat]
  omega

theorem pyRfind_wrapBare (I : PyStr) :
    pyRfind fencePat (fenceWrapBare I) = ((5 + I.length : Nat) : Int) := by
  have hsh : fenceWrapBare I = (fencePat ++ ('\n' :: I) ++ ['\n']) ++ fencePat := by
    simp [fenceWrapBare, fencePat, List.append_assoc]
  rw [hsh, pyRfind_append_fence]
  simp [fencePat]
  omega

theorem pySlice_wrapJson (I : PyStr) :
    pySlice (fenceWrapJson I) (0 + 7) ((9 + I.length : Nat) : Int) =
      '\n' :: (I ++ ['\n']) := by
  rw [pySlice]
  have ha : ((0 : Int) + 7).toNat = 7 := by decide
  have hb : (((9 + I.length : Nat) : Int)).toNat = 9 + I.length := Int.toNat_natCast _
  rw [ha, hb]
  have hdrop : (fenceWrapJson I).drop 7 = ('\n' :: I) ++ ('\n' :: fencePat) := by
    rw [fenceWrapJson_split]
    have h7 : (7 : Nat) = fenceJsonPat.length := rfl
    rw [h7, List.drop_left]
  rw [hdrop]
  have hsh : ('\n' :: I) ++ ('\n' :: fencePat) = ('\n' :: (I ++ ['\n'])) ++ fencePat := by
    simp [fencePat]
  rw [hsh]
  exact List.take_left' (by simp; omega)

theorem pySlice_wrapBare (I : PyStr) :
    pySlice (fenceWrapBare I) (0 + 3) ((5 + I.length : Nat) : Int) =
      '\n' :: (I ++ ['\n']) := by
  rw [pySlice]
  have ha : ((0 : Int) + 3).toNat = 3 := by decide
  have hb : (((5 + I.length : Nat) : Int)).toNat = 5 + I.length := Int.toNat_natCast _
  rw [ha, hb]
  have hdrop : (fenceWrapBare I).drop 3 = ('\n' :: I) ++ ('\n' :: fencePat) := by
    rw [fenceWrapBare_split]
    have h3 : (3 : Nat) = fencePat.length := rfl
    rw [h3, List.drop_left]
  rw [hdrop]
  have hsh : ('\n' :: I) ++ ('\n' :: fencePat) = ('\n' :: (I ++ ['\n'])) ++ fencePat := by
    simp [fencePat]
  rw [hsh]
  exact List.take_left' (by simp; omega)

/-- C6 (amended): for a trimmed fenced block whose language tag is `json` or
absent, and whose interior is trimmed and has its first `\x7b` (if any) at
position 0, the sanitizer returns exactly the interior with the fences and
the `json` tag removed.  (A different language tag is not stripped — see the
counterexample — and an interior whose first `\x7b` is at a later position is
further truncated by the brace-scan.) -/
theorem fenced_block_interior_extracted (I : PyStr)
    (hstrip : pyStrip I = I) (hbrace : pyFind bracePat I ≤ 0) :
    sanitize (fenceWrapJson I) = I ∧ sanitize (fenceWrapBare I) = I := by
  constructor
  · show (let cleaned := pyStrip (fenceWrapJson I)
          let cleaned :=
            if pyStartswith fenceJsonPat cleaned then
              let start_idx := pyFind fenceJsonPat cleaned + 7
              let end_idx := pyRfind fencePat cleaned
              if end_idx > start_idx then pyStrip (pySlice cleaned start_idx end_idx)
              else cleaned
            else if pyStartswith fencePat cleaned then
              let start_idx := pyFind fencePat cleaned + 3
              let end_idx := pyRfind fencePat cleaned
              if end_idx > start_idx then pyStrip (pySlice cleaned start_idx end_idx)
              else cleaned
            else cleaned
          if pyFind bracePat cleaned > 0 then
            pySliceFrom cleaned (pyFind bracePat cleaned)
          else cleaned) = I
    have hpre := startswith_fenceJson_wrapJson I
    have hfind : pyFind fenceJsonPat (fenceWrapJson I) = 0 :=
      pyFind_of_isPrefixOf hpre
    have hinner :
        (if ((9 + I.length : Nat) : Int) > 0 + 7 then
          pyStrip (pySlice (fenceWrapJson I) (0 + 7) ((9 + I.length : Nat) : Int))
        else fenceWrapJson I) = I := by
      rw [if_pos (by push_cast; omega)]
      rw [pySlice_wrapJson, pyStrip_newline_wrap hstrip]
    simp only [pyStrip_fenceWrapJson, hpre, if_true, hfind, pyRfind_wrapJson, hinner]
    rw [if_neg (by omega)]
  · show (let cleaned := pyStrip (fenceWrapBare I)
          let cleaned :=
            if pyStartswith fenceJsonPat cleaned then
              let start_idx := pyFind fenceJsonPat cleaned + 7
              let end_idx := pyRfind fencePat cleaned
              if end_idx > start_idx then pyStrip (pySlice cleaned start_idx end_idx)
              else cleaned
            else if pyStartswith fencePat cleaned then
              let start_idx := pyFind fencePat cleaned + 3
              let end_idx := pyRfind fencePat cleaned
              if end_idx > start_idx then pyStrip (pySlice cleaned start_idx end_idx)
              else cleaned
            else cleaned
          if pyFind bracePat cleaned > 0 then
            pySliceFrom cleaned (pyFind bracePat cleaned)
          else cleaned) = I
    have hpre := startswith_fence_wrapBare I
    have hnpre := not_startswith_fenceJson_wrapBare I
    have hfind : pyFind fencePat (fenceWrapBare I) = 0 :=
      pyFind_of_isPrefixOf hpre
    have hinner :
        (if ((5 + I.length : Nat) : Int) > 0 + 3 then
          pyStrip (pySlice (fenceWrapBare I) (0 + 3) ((5 + I.length : Nat) : Int))
        else fenceWrapBare I) = I := by
      rw [if_pos (by push_cast; omega)]
      rw [pySlice_wrapBare, pyStrip_newline_wrap hstrip]
    simp only [pyStrip_fenceWrapBare, hnpre, Bool.false_eq_true, if_false,
      hpre, if_true, hfind, pyRfind_wrapBare, hinner]
    rw [if_neg (by omega)]

theorem fenced_block_interior_extracted_witness :
    sanitize (fenceWrapJson (chars "\x7b\"a\": 1\x7d")) = chars "\x7b\"a\": 1\x7d" ∧
    sanitize (fenceWrapBare (chars "\x7b\"a\": 1\x7d")) = chars "\x7b\"a\": 1\x7d" :=
  fenced_block_interior_extracted (chars "\x7b\"a\": 1\x7d") (by decide) (by decide)

theorem skipWs_cons_of_ws {c : Char} {s : PyStr} (h : jsonWs c = true) :
    skipWs (c :: s) = skipWs s := by
  simp [skipWs, List.dropWhile_cons, h]

theorem skipWs_cons_of_not_ws {c : Char} {s : PyStr} (h : jsonWs c = false) :
    skipWs (c :: s) = c :: s := by
  simp [skipWs, List.dropWhile_cons, h]

theorem skipWs_pad_append (n : Nat) (s : PyStr) : skipWs (pad n ++ s) = skipWs s := by
  induction n with
  | zero => rfl
  | succ k ih =>
    show skipWs (List.replicate (k + 1) ' ' ++ s) = skipWs s
    rw [List.replicate_succ, List.cons_append, skipWs_cons_of_ws (by decide)]
    exact ih

theorem hexVal_hexDigitCh {n : Nat} (h : n < 16) : hexVal (hexDigitCh n) = some n := by
  interval_cases n <;> decide

theorem escapeStr_append (s t : PyStr) :
    escapeStr (s ++ t) = escapeStr s ++ escapeStr t := by
  induction s with
  | nil => rfl
  | cons c cs ih => simp [escapeStr, ih]

theorem length_le_escapeStr (s : PyStr) : s.length ≤ (escapeStr s).length := by
  induction s with
  | nil => simp [escapeStr]
  | cons c cs ih =>
    have hc : 1 ≤ (escapeChar c).length := by
      rw [escapeChar]
      repeat' split
      all_goals simp
    simp only [escapeStr, List.length_append, List.length_cons]
    omega


theorem parseStrBody_escape :
    ∀ (s : PyStr) (fuel : Nat) (rest : PyStr), s.length + 1 ≤ fuel →
      parseStrBody fuel (escapeStr s ++ ('"' :: rest)) = some (s, rest)
  | [], fuel, rest, hf => by
    match fuel, hf with
    | f + 1, _ =>
      show parseStrBody (f + 1) ('"' :: rest) = some ([], rest)
      simp [parseStrBody]
  | c :: t, fuel, rest, hf => by
    match fuel, hf with
    | f + 1, hf =>
      have ih : parseStrBody f (escapeStr t ++ ('"' :: rest)) = some (t, rest) :=
        parseStrBody_escape t f rest (by simp at hf; omega)
      show parseStrBody (f + 1) ((escapeChar c ++ escapeStr t) ++ ('"' :: rest)) =
        some (c :: t, rest)
      by_cases h1 : c = '"'
      · subst h1
        simp [escapeChar, parseStrBody, ih]
      by_cases h2 : c = '\\'
      · subst h2
        simp [escapeChar, parseStrBody, ih]
      by_cases h3 : c = '\n'
      · subst h3
        simp [escapeChar, parseStrBody, ih]
      by_cases h4 : c = '\t'
      · subst h4
        simp [escapeChar, parseStrBody, ih]
      by_cases h5 : c = '\r'
      · subst h5
        simp [escapeChar, parseStrBody, ih]
      by_cases h6 : c = '\x08'
      · subst h6
        simp [escapeChar, parseStrBody, ih]
      by_cases h7 : c = '\x0c'
      · subst h7
        simp [escapeChar, parseStrBody, ih]
      by_cases h8 : c.toNat < 0x20
      · have hesc : escapeChar c = ['\\', 'u', '0', '0',
            hexDigitCh (c.toNat / 16), hexDigitCh (c.toNat % 16)] := by
          rw [escapeChar, if_neg h1, if_neg h2, if_neg h3, if_neg h4, if_neg h5,
            if_neg h6, if_neg h7, if_pos h8]
        rw [hesc]
        have h16a : c.toNat / 16 < 16 := by omega
        have h16b : c.toNat % 16 < 16 := by omega
        have hnval : ((0 * 16 + 0) * 16 + c.toNat / 16) * 16 + c.toNat % 16 =
            c.toNat := by omega
        have hns1 : ¬ (0xD800 ≤ c.toNat ∧ c.toNat ≤ 0xDBFF) := by omega
        have hns2 : ¬ (0xDC00 ≤ c.toNat ∧ c.toNat ≤ 0xDFFF) := by omega
        simp only [List.cons_append, List.nil_append]
        rw [parseStrBody]
        simp only [reduceCtorEq, reduceIte, Char.reduceEq,
          show hexVal '0' = some 0 from rfl, hexVal_hexDigitCh h16a,
          hexVal_hexDigitCh h16b, hnval, hns1, hns2, if_false, ih, Option.map_some]
        rw [Char.ofNat_toNat c]
        simp [ih]
      · have hesc : escapeChar c = [c] := by
          rw [escapeChar, if_neg h1, if_neg h2, if_neg h3, if_neg h4, if_neg h5,
            if_neg h6, if_neg h7, if_neg h8]
        rw [hesc]
        simp only [List.cons_append, List.nil_append]
        rw [parseStrBody.eq_def]
        simp [h1, h2, h8, ih]

theorem digitCh_isDigit {d : Nat} (h : d < 10) : (digitCh d).isDigit = true := by
  interval_cases d <;> decide

theorem digitCh_ne_zero {d : Nat} (h1 : 1 ≤ d) (h2 : d < 10) : digitCh d ≠ '0' := by
  interval_cases d <;> decide

theorem digitVal_digitCh {d : Nat} (h : d < 10) : digitVal (digitCh d) = d := by
  interval_cases d <;> decide

theorem natReprAux_extra : ∀ (n f1 f2 : Nat), n < f1 → n < f2 →
    natReprAux f1 n = natReprAux f2 n := by
  intro n
  induction n using Nat.strong_induction_on with
  | _ n ih =>
    intro f1 f2 h1 h2
    match f1, f2, h1, h2 with
    | g1 + 1, g2 + 1, h1, h2 =>
      show natReprAux (g1 + 1) n = natReprAux (g2 + 1) n
      rw [natReprAux, natReprAux]
      by_cases h10 : n < 10
      · simp [h10]
      · simp only [h10, if_false]
        have hdiv : n / 10 < n := Nat.div_lt_self (by omega) (by omega)
        rw [ih (n / 10) hdiv g1 g2 (by omega) (by omega)]

theorem natRepr_lt10 {n : Nat} (h : n < 10) : natRepr n = [digitCh n] := by
  rw [natRepr, natReprAux]
  simp [h]

theorem natRepr_ge10 {n : Nat} (h : 10 ≤ n) :
    natRepr n = natRepr (n / 10) ++ [digitCh (n % 10)] := by
  rw [natRepr, natRepr, natReprAux]
  simp only [show ¬ (n < 10) from by omega, if_false]
  rw [natReprAux_extra (n / 10) n (n / 10 + 1)
    (Nat.div_lt_self (by omega) (by omega)) (by omega)]

theorem natRepr_all_digits : ∀ n : Nat, ∀ c ∈ natRepr n, c.isDigit = true := by
  intro n
  induction n using Nat.strong_induction_on with
  | _ n ih =>
    intro c hc
    by_cases h10 : n < 10
    · rw [natRepr_lt10 h10] at hc
      simp at hc
      subst hc
      exact digitCh_isDigit h10
    · rw [natRepr_ge10 (by omega)] at hc
      rcases List.mem_append.mp hc with hm | hm
      · exact ih (n / 10) (Nat.div_lt_self (by omega) (by omega)) c hm
      · simp at hm
        subst hm
        exact digitCh_isDigit (by omega)

theorem natRepr_head : ∀ n : Nat, ∃ c t, natRepr n = c :: t ∧ c.isDigit = true ∧
    (1 ≤ n → c ≠ '0') := by
  intro n
  induction n using Nat.strong_induction_on with
  | _ n ih =>
    by_cases h10 : n < 10
    · refine ⟨digitCh n, [], natRepr_lt10 h10, digitCh_isDigit h10, fun h1 => ?_⟩
      exact digitCh_ne_zero h1 h10
    · rcases ih (n / 10) (Nat.div_lt_self (by omega) (by omega)) with ⟨c, t, heq, hdig, hz⟩
      refine ⟨c, t ++ [digitCh (n % 10)], ?_, hdig, fun _ => hz (by omega)⟩
      rw [natRepr_ge10 (by omega), heq]
      rfl

theorem decodeDigits_append (ds : PyStr) (c : Char) :
    decodeDigits (ds ++ [c]) = 10 * decodeDigits ds + digitVal c := by
  simp [decodeDigits, List.foldl_append]
  omega

theorem decode_natRepr : ∀ n : Nat, decodeDigits (natRepr n) = n := by
  intro n
  induction n using Nat.strong_induction_on with
  | _ n ih =>
    by_cases h10 : n < 10
    · rw [natRepr_lt10 h10]
      show decodeDigits ([] ++ [digitCh n]) = n
      rw [decodeDigits_append]
      simp [decodeDigits, digitVal_digitCh h10]
    · rw [natRepr_ge10 (by omega), decodeDigits_append,
        ih (n / 10) (Nat.div_lt_self (by omega) (by omega)),
        digitVal_digitCh (by omega)]
      omega

theorem takeWhile_all_append (p : Char → Bool) : ∀ (l1 l2 : PyStr),
    (∀ c ∈ l1, p c = true) →
    (∀ c t, l2 = c :: t → p c = false) →
    (l1 ++ l2).takeWhile p = l1 ∧ (l1 ++ l2).dropWhile p = l2 := by
  intro l1
  induction l1 with
  | nil =>
    intro l2 _ h2
    match l2 with
    | [] => exact ⟨rfl, rfl⟩
    | c :: t =>
      have hc := h2 c t rfl
      constructor
      · simp [List.takeWhile_cons, hc]
      · simp [List.dropWhile_cons, hc]
  | cons c t ih =>
    intro l2 h1 h2
    have hc : p c = true := h1 c (by simp)
    rcases ih l2 (fun x hx => h1 x (by simp [hx])) h2 with ⟨ht, hd⟩
    constructor
    · simp [List.takeWhile_cons, hc, ht]
    · simp [List.dropWhile_cons, hc, hd]

theorem isDigit_ne_minus {c : Char} (h : c.isDigit = true) : ¬ (c = '-') := by
  intro hc
  subst hc
  exact absurd h (by decide)

theorem delim_head_not_digit {c : Char} {t : PyStr} (hd : delim (c :: t)) :
    c.isDigit = false := by
  have h : c = ',' ∨ c = '\n' := hd
  rcases h with rfl | rfl <;> rfl

theorem parseNum_natRepr_pos (m : Nat) (rest : PyStr) (hd : delim rest) (hm : 1 ≤ m) :
    parseNum (natRepr m ++ rest) = some (.num (m : Int), rest) := by
  rcases natRepr_head m with ⟨c, tN, heq, hdig, hz⟩
  have hcz : ¬ (c = '0') := hz hm
  have hneg : ¬ (c = '-') := isDigit_ne_minus hdig
  have htk := takeWhile_all_append Char.isDigit (natRepr m) rest
    (natRepr_all_digits m) (fun c' t' ht => by subst ht; exact delim_head_not_digit hd)
  have hs : natRepr m ++ rest = c :: (tN ++ rest) := by rw [heq]; rfl
  rw [hs]
  simp only [parseNum, hneg, ite_false, hdig, ite_true, hcz]
  rw [← hs, htk.1, htk.2]
  rcases rest with _ | ⟨c2, t2⟩
  · simp [decode_natRepr m]
  · have h2 : c2 = ',' ∨ c2 = '\n' := hd
    rcases h2 with rfl | rfl <;> simp [decode_natRepr m]

theorem parseNum_natRepr_zero (rest : PyStr) (hd : delim rest) :
    parseNum (natRepr 0 ++ rest) = some (.num 0, rest) := by
  have h0 : natRepr 0 = ['0'] := by decide
  rw [h0]
  show parseNum ('0' :: rest) = some (.num 0, rest)
  simp only [parseNum]
  rcases rest with _ | ⟨c2, t2⟩
  · simp [decodeDigits, digitVal]
  · have h2 : c2 = ',' ∨ c2 = '\n' := hd
    rcases h2 with rfl | rfl <;> simp [decodeDigits, digitVal]

theorem parseNum_neg_natRepr (m : Nat) (rest : PyStr) (hd : delim rest) (hm : 1 ≤ m) :
    parseNum (('-' :: natRepr m) ++ rest) = some (.num (-(m : Int)), rest) := by
  rcases natRepr_head m with ⟨c, tN, heq, hdig, hz⟩
  have hcz : ¬ (c = '0') := hz hm
  have htk := takeWhile_all_append Char.isDigit (natRepr m) rest
    (natRepr_all_digits m) (fun c' t' ht => by subst ht; exact delim_head_not_digit hd)
  have hs : natRepr m ++ rest = c :: (tN ++ rest) := by rw [heq]; rfl
  show parseNum ('-' :: (natRepr m ++ rest)) = some (.num (-(m : Int)), rest)
  rw [hs]
  simp only [parseNum, ite_true, hdig, hcz, ite_false]
  rw [← hs, htk.1, htk.2]
  rcases rest with _ | ⟨c2, t2⟩
  · simp [decode_natRepr m]
  · have h2 : c2 = ',' ∨ c2 = '\n' := hd
    rcases h2 with rfl | rfl <;> simp [decode_natRepr m]

theorem parseNum_intRepr (n : Int) (rest : PyStr) (hd : delim rest) :
    parseNum (intRepr n ++ rest) = some (.num n, rest) := by
  by_cases hneg : n < 0
  · rw [intRepr, if_pos hneg]
    have hc : ((-n).toNat : Int) = -n := Int.toNat_of_nonneg (by omega)
    have hm : 1 ≤ (-n).toNat := (Int.le_toNat (by omega)).mpr (by omega)
    rw [parseNum_neg_natRepr (-n).toNat rest hd hm, hc]
    simp
  · rw [intRepr, if_neg hneg]
    have hc : (n.toNat : Int) = n := Int.toNat_of_nonneg (by omega)
    by_cases h0 : n.toNat = 0
    · rw [h0, parseNum_natRepr_zero rest hd]
      rw [h0] at hc
      simp at hc
      rw [hc]
    · rw [parseNum_natRepr_pos n.toNat rest hd (by omega), hc]

theorem isDigit_head_facts {c : Char} (h : c.isDigit = true) :
    jsonWs c = false ∧ ¬ (c = ']') ∧ ¬ (c = '\x7d') := by
  have h48 : '0' ≤ c ∧ c ≤ '9' := by
    simpa [Char.isDigit, Bool.and_eq_true, decide_eq_true_eq] using h
  have hlo : 48 ≤ c.toNat := h48.1
  have hhi : c.toNat ≤ 57 := h48.2
  refine ⟨?_, ?_, ?_⟩
  · simp only [jsonWs, Bool.or_eq_false_iff, decide_eq_false_iff_not]
    refine ⟨⟨⟨?_, ?_⟩, ?_⟩, ?_⟩ <;> rintro rfl <;> simp_all
  · rintro rfl
    simp_all
  · rintro rfl
    simp_all

theorem dumpVal_head (ind : Nat) (v : Json) : ∃ c t, dumpVal ind v = c :: t ∧
    jsonWs c = false ∧ ¬ (c = ']') ∧ ¬ (c = '\x7d') := by
  cases v with
  | null => exact ⟨'n', _, rfl, by decide, by decide, by decide⟩
  | bool b =>
    cases b
    · exact ⟨'f', _, rfl, by decide, by decide, by decide⟩
    · exact ⟨'t', _, rfl, by decide, by decide, by decide⟩
  | num n =>
    show ∃ c t, intRepr n = c :: t ∧ _
    rw [intRepr]
    by_cases hneg : n < 0
    · rw [if_pos hneg]
      exact ⟨'-', _, rfl, by decide, by decide, by decide⟩
    · rw [if_neg hneg]
      rcases natRepr_head n.toNat with ⟨c, t, heq, hdig, _⟩
      rcases isDigit_head_facts hdig with ⟨hw, hb1, hb2⟩
      exact ⟨c, t, heq, hw, hb1, hb2⟩
  | str s => exact ⟨'"', _, rfl, by decide, by decide, by decide⟩
  | arr xs =>
    cases xs
    · exact ⟨'[', _, rfl, by decide, by decide, by decide⟩
    · exact ⟨'[', _, rfl, by decide, by decide, by decide⟩
  | obj ms =>
    cases ms with
    | nil => exact ⟨'\x7b', ['\x7d'], rfl, by decide, by decide, by decide⟩
    | cons kv ms =>
      rcases kv with ⟨k, v⟩
      exact ⟨'\x7b', _, rfl, by decide, by decide, by decide⟩

theorem skipWs_dumpVal (ind : Nat) (v : Json) (rest : PyStr) :
    skipWs (dumpVal ind v ++ rest) = dumpVal ind v ++ rest := by
  rcases dumpVal_head ind v with ⟨c, t, heq, hw, _, _⟩
  rw [heq, List.cons_append, skipWs_cons_of_not_ws hw]

theorem insertKey_not_mem {k : PyStr} {v : Json} :
    ∀ (acc : List (PyStr × Json)), k ∉ acc.map Prod.fst →
      insertKey k v acc = acc ++ [(k, v)] := by
  intro acc
  induction acc with
  | nil => intro; rfl
  | cons kv t ih =>
    rcases kv with ⟨k', v'⟩
    intro hmem
    have hk : ¬ (k' = k) := by
      intro h
      subst h
      exact hmem (List.mem_map.mpr ⟨(k', v'), by simp, rfl⟩)
    rw [insertKey, if_neg hk, ih (fun hm => hmem (by simp [hm]))]
    rfl

theorem nodupKeys_iff : ∀ l : List PyStr, nodupKeys l = true ↔ l.Nodup := by
  intro l
  induction l with
  | nil => simp [nodupKeys]
  | cons k ks ih =>
    rw [nodupKeys, Bool.and_eq_true, ih, List.nodup_cons]
    have hcm : ks.contains k = true ↔ k ∈ ks := List.elem_iff
    constructor
    · rintro ⟨h1, h2⟩
      refine ⟨?_, h2⟩
      intro hm
      rw [hcm.mpr hm] at h1
      exact absurd h1 (by decide)
    · rintro ⟨h1, h2⟩
      refine ⟨?_, h2⟩
      have hcf : ks.contains k = false := by
        by_contra hc
        rw [Bool.not_eq_false] at hc
        exact h1 (hcm.mp hc)
      rw [hcf]
      rfl

theorem jsize_pos (v : Json) : 1 ≤ jsize v := by
  cases v <;> simp [jsize] <;> omega

theorem lsize_pos (xs : List Json) : 1 ≤ lsize xs := by
  cases xs with
  | nil => simp [lsize]
  | cons x t =>
    have := jsize_pos x
    simp [lsize]
    omega

theorem msize_pos (ms : List (PyStr × Json)) : 1 ≤ msize ms := by
  cases ms with
  | nil => simp [msize]
  | cons kv t =>
    rcases kv with ⟨k, v⟩
    have := jsize_pos v
    simp [msize]
    omega

theorem isDigit_not_special {c : Char} (h : c.isDigit = true) :
    ¬ (c = '"') ∧ ¬ (c = '[') ∧ ¬ (c = '\x7b') ∧ ¬ (c = 'n') ∧ ¬ (c = 't') ∧
      ¬ (c = 'f') := by
  have h48 : '0' ≤ c ∧ c ≤ '9' := by
    simpa [Char.isDigit, Bool.and_eq_true, decide_eq_true_eq] using h
  have hlo : 48 ≤ c.toNat := h48.1
  have hhi : c.toNat ≤ 57 := h48.2
  refine ⟨?_, ?_, ?_, ?_, ?_, ?_⟩ <;> rintro rfl <;> simp_all

theorem wfList_cons {x : Json} {xs : List Json} (h : wfList (x :: xs) = true) :
    wfJson x = true ∧ wfList xs = true := by
  rw [wfList, Bool.and_eq_true] at h
  exact h

theorem wfMembers_cons {k : PyStr} {v : Json} {ms : List (PyStr × Json)}
    (h : wfMembers ((k, v) :: ms) = true) : wfJson v = true ∧ wfMembers ms = true := by
  rw [wfMembers, Bool.and_eq_true] at h
  exact h

theorem delim_dumpItems (ind : Nat) (xs : List Json) (rest : PyStr) :
    delim (dumpItems ind xs ++ rest) := by
  cases xs with
  | nil => exact Or.inr rfl
  | cons y ys => exact Or.inl rfl

theorem delim_dumpMembers (ind : Nat) (ms : List (PyStr × Json)) (rest : PyStr) :
    delim (dumpMembers ind ms ++ rest) := by
  cases ms with
  | nil => exact Or.inr rfl
  | cons kv ms' =>
    rcases kv with ⟨k2, v2⟩
    exact Or.inl rfl

theorem parse_dump_all : ∀ fuel : Nat,
    (∀ (ind : Nat) (v : Json) (rest : PyStr), wfJson v = true → jsize v ≤ fuel →
      delim rest → parseVal fuel (dumpVal ind v ++ rest) = some (v, rest)) ∧
    (∀ (ind : Nat) (x : Json) (xs : List Json) (rest : PyStr),
      wfJson x = true → wfList xs = true → lsize (x :: xs) ≤ fuel → delim rest →
      parseItems fuel (dumpVal (ind + 2) x ++ (dumpItems ind xs ++ rest)) =
        some (x :: xs, rest)) ∧
    (∀ (ind : Nat) (k : PyStr) (v : Json) (ms : List (PyStr × Json))
      (acc : List (PyStr × Json)) (rest : PyStr),
      wfJson v = true → wfMembers ms = true → msize ((k, v) :: ms) ≤ fuel →
      delim rest → nodupKeys ((acc ++ (k, v) :: ms).map Prod.fst) = true →
      parseMembers fuel
        (encodeStr k ++
          (':' :: ' ' :: (dumpVal (ind + 2) v ++ (dumpMembers ind ms ++ rest)))) acc =
        some (acc ++ (k, v) :: ms, rest)) := by
  intro fuel
  induction fuel using Nat.strong_induction_on with
  | _ fuel ih =>
    refine ⟨?_, ?_, ?_⟩
    · intro ind v rest hwf hsz hdel
      cases fuel with
      | zero => exact absurd hsz (by have := jsize_pos v; omega)
      | succ f =>
        cases v with
        | null =>
          show parseVal (f + 1) ('n' :: 'u' :: 'l' :: 'l' :: rest) = some (.null, rest)
          simp [parseVal]
        | bool b =>
          cases b
          · show parseVal (f + 1) ('f' :: 'a' :: 'l' :: 's' :: 'e' :: rest) =
              some (.bool false, rest)
            simp [parseVal]
          · show parseVal (f + 1) ('t' :: 'r' :: 'u' :: 'e' :: rest) =
              some (.bool true, rest)
            simp [parseVal]
        | num n =>
          show parseVal (f + 1) (intRepr n ++ rest) = some (.num n, rest)
          have hpn := parseNum_intRepr n rest hdel
          by_cases hneg : n < 0
          · have hir : intRepr n = '-' :: natRepr (-n).toNat := by
              rw [intRepr, if_pos hneg]
            rw [hir, List.cons_append]
            rw [hir, List.cons_append] at hpn
            simp [parseVal, hpn]
          · have hir : intRepr n = natRepr n.toNat := by rw [intRepr, if_neg hneg]
            rcases natRepr_head n.toNat with ⟨c, tl, heq, hdig, _⟩
            rcases isDigit_not_special hdig with ⟨h1, h2, h3, h4, h5, h6⟩
            rw [hir, heq, List.cons_append]
            rw [hir, heq, List.cons_append] at hpn
            simp [parseVal, h1, h2, h3, h4, h5, h6, hpn]
        | str s =>
          have hsh : dumpVal ind (.str s) ++ rest =
              '"' :: (escapeStr s ++ ('"' :: rest)) := by
            show encodeStr s ++ rest = _
            simp [encodeStr]
          rw [hsh]
          have hfu : s.length + 1 ≤ f := by
            have : jsize (.str s) = s.length + 2 := rfl
            omega
          simp [parseVal, parseStrBody_escape s f rest hfu]
        | arr xs =>
          cases xs with
          | nil =>
            show parseVal (f + 1) ('[' :: ']' :: rest) = some (.arr [], rest)
            simp [parseVal, skipWs, List.dropWhile_cons, jsonWs]
          | cons x xs' =>
            have hsh : dumpVal ind (.arr (x :: xs')) ++ rest =
                '[' :: '\n' :: (pad (ind + 2) ++
                  (dumpVal (ind + 2) x ++ (dumpItems ind xs' ++ rest))) := by
              show ('[' :: '\n' :: pad (ind + 2) ++ dumpVal (ind + 2) x ++
                dumpItems ind xs') ++ rest = _
              simp [List.append_assoc]
            rw [hsh]
            rcases dumpVal_head (ind + 2) x with ⟨c, tl, heqx, hw, hbr, _⟩
            have hsk : skipWs ('\n' :: (pad (ind + 2) ++
                (dumpVal (ind + 2) x ++ (dumpItems ind xs' ++ rest)))) =
                c :: (tl ++ (dumpItems ind xs' ++ rest)) := by
              rw [skipWs_cons_of_ws (by decide), skipWs_pad_append, skipWs_dumpVal,
                heqx, List.cons_append]
            have hwf' : wfList (x :: xs') = true := hwf
            rcases wfList_cons hwf' with ⟨hwx, hwxs⟩
            have hls : lsize (x :: xs') ≤ f := by
              have : jsize (.arr (x :: xs')) = 1 + lsize (x :: xs') := rfl
              omega
            have happ := (ih f (by omega)).2.1 ind x xs' rest hwx hwxs hls hdel
            rw [heqx, List.cons_append] at happ
            simp [parseVal, hsk, hbr, happ]
        | obj ms =>
          cases ms with
          | nil =>
            show parseVal (f + 1) ('\x7b' :: '\x7d' :: rest) = some (.obj [], rest)
            simp [parseVal, skipWs, List.dropWhile_cons, jsonWs]
          | cons kv ms' =>
            rcases kv with ⟨k, v⟩
            have hsh : dumpVal ind (.obj ((k, v) :: ms')) ++ rest =
                '\x7b' :: '\n' :: (pad (ind + 2) ++
                  (encodeStr k ++ (':' :: ' ' ::
                    (dumpVal (ind + 2) v ++ (dumpMembers ind ms' ++ rest))))) := by
              show ('\x7b' :: '\n' :: pad (ind + 2) ++ encodeStr k ++ ':' :: ' ' ::
                dumpVal (ind + 2) v ++ dumpMembers ind ms') ++ rest = _
              simp [List.append_assoc]
            rw [hsh]
            have hsk : skipWs ('\n' :: (pad (ind + 2) ++
                (encodeStr k ++ (':' :: ' ' ::
                  (dumpVal (ind + 2) v ++ (dumpMembers ind ms' ++ rest)))))) =
                '"' :: ((escapeStr k ++ ['"']) ++ (':' :: ' ' ::
                  (dumpVal (ind + 2) v ++ (dumpMembers ind ms' ++ rest)))) := by
              rw [skipWs_cons_of_ws (by decide), skipWs_pad_append]
              show skipWs ('"' :: ((escapeStr k ++ ['"']) ++ _)) = _
              rw [skipWs_cons_of_not_ws (by decide)]
            have hwf' : (nodupKeys (((k, v) :: ms').map Prod.fst) &&
                wfMembers ((k, v) :: ms')) = true := hwf
            rw [Bool.and_eq_true] at hwf'
            rcases wfMembers_cons hwf'.2 with ⟨hwv, hwms⟩
            have hms : msize ((k, v) :: ms') ≤ f := by
              have : jsize (.obj ((k, v) :: ms')) = 1 + msize ((k, v) :: ms') := rfl
              omega
            have hmem := (ih f (by omega)).2.2 ind k v ms' [] rest hwv hwms hms hdel
              (by simpa using hwf'.1)
            have hmem' : parseMembers f
                ('"' :: (escapeStr k ++ ('"' :: (':' :: ' ' ::
                  (dumpVal (ind + 2) v ++ (dumpMembers ind ms' ++ rest)))))) [] =
                some ((k, v) :: ms', rest) := by
              have hes : encodeStr k ++ (':' :: ' ' ::
                  (dumpVal (ind + 2) v ++ (dumpMembers ind ms' ++ rest))) =
                  '"' :: (escapeStr k ++ ('"' :: (':' :: ' ' ::
                    (dumpVal (ind + 2) v ++ (dumpMembers ind ms' ++ rest))))) := by
                simp [encodeStr]
              rw [← hes]
              simpa using hmem
            simp [parseVal, hsk, hmem']
    · intro ind x xs rest hwx hwxs hsz hdel
      cases fuel with
      | zero =>
        exact absurd hsz (by have := jsize_pos x; have := lsize_pos xs; simp [lsize])
      | succ f =>
        have hjx : jsize x ≤ f := by
          have := lsize_pos xs
          simp [lsize] at hsz
          omega
        have hv := (ih f (by omega)).1 (ind + 2) x (dumpItems ind xs ++ rest) hwx hjx
          (delim_dumpItems ind xs rest)
        cases xs with
        | nil =>
          have hsk : skipWs (dumpItems ind ([] : List Json) ++ rest) = ']' :: rest := by
            have hdi : dumpItems ind ([] : List Json) ++ rest =
                '\n' :: (pad ind ++ (']' :: rest)) := by
              simp [dumpItems]
            rw [hdi, skipWs_cons_of_ws (by decide), skipWs_pad_append,
              skipWs_cons_of_not_ws (by decide)]
          simp [parseItems, hv, hsk]
        | cons y ys =>
          have hdi : dumpItems ind (y :: ys) ++ rest =
              ',' :: '\n' :: (pad (ind + 2) ++
                (dumpVal (ind + 2) y ++ (dumpItems ind ys ++ rest))) := by
            simp [dumpItems, List.append_assoc]
          have hsk : skipWs (dumpItems ind (y :: ys) ++ rest) =
              ',' :: '\n' :: (pad (ind + 2) ++
                (dumpVal (ind + 2) y ++ (dumpItems ind ys ++ rest))) := by
            rw [hdi, skipWs_cons_of_not_ws (by decide)]
          have hsk2 : skipWs ('\n' :: (pad (ind + 2) ++
              (dumpVal (ind + 2) y ++ (dumpItems ind ys ++ rest)))) =
              dumpVal (ind + 2) y ++ (dumpItems ind ys ++ rest) := by
            rw [skipWs_cons_of_ws (by decide), skipWs_pad_append, skipWs_dumpVal]
          have hls' : lsize (y :: ys) ≤ f := by
            have := jsize_pos x
            simp [lsize] at hsz ⊢
            omega
          rcases wfList_cons hwxs with ⟨hwy, hwys⟩
          have hrec := (ih f (by omega)).2.1 ind y ys rest hwy hwys hls' hdel
          simp [parseItems, hv, hsk, hsk2, hrec]
    · intro ind k v ms acc rest hwv hwms hsz hdel hnd
      cases fuel with
      | zero =>
        exact absurd hsz (by
          have := jsize_pos v
          have := msize_pos ms
          simp [msize])
      | succ f =>
        have hjv : jsize v ≤ f := by
          have := msize_pos ms
          simp [msize] at hsz
          omega
        have hkf : k.length + 1 ≤ f := by
          have := jsize_pos v
          have := msize_pos ms
          simp [msize] at hsz
          omega
        have hek : encodeStr k ++ (':' :: ' ' ::
            (dumpVal (ind + 2) v ++ (dumpMembers ind ms ++ rest))) =
            '"' :: (escapeStr k ++ ('"' :: (':' :: ' ' ::
              (dumpVal (ind + 2) v ++ (dumpMembers ind ms ++ rest))))) := by
          simp [encodeStr]
        have hstr := parseStrBody_escape k f (':' :: ' ' ::
          (dumpVal (ind + 2) v ++ (dumpMembers ind ms ++ rest))) hkf
        have hskv : skipWs (' ' :: (dumpVal (ind + 2) v ++ (dumpMembers ind ms ++ rest))) =
            dumpVal (ind + 2) v ++ (dumpMembers ind ms ++ rest) := by
          rw [skipWs_cons_of_ws (by decide), skipWs_dumpVal]
        have hv := (ih f (by omega)).1 (ind + 2) v (dumpMembers ind ms ++ rest) hwv hjv
          (delim_dumpMembers ind ms rest)
        have hkacc : k ∉ acc.map Prod.fst := by
          rw [nodupKeys_iff] at hnd
          rw [List.map_append] at hnd
          intro hmem
          exact (List.disjoint_of_nodup_append hnd) hmem
            (List.mem_map.mpr ⟨(k, v), List.mem_cons_self _ _, rfl⟩)
        cases ms with
        | nil =>
          have hsk3 : skipWs (dumpMembers ind ([] : List (PyStr × Json)) ++ rest) =
              '\x7d' :: rest := by
            have hdm : dumpMembers ind ([] : List (PyStr × Json)) ++ rest =
                '\n' :: (pad ind ++ ('\x7d' :: rest)) := by
              simp [dumpMembers]
            rw [hdm, skipWs_cons_of_ws (by decide), skipWs_pad_append,
              skipWs_cons_of_not_ws (by decide)]
          rw [hek]
          simp [parseMembers, hstr, skipWs_cons_of_not_ws (show jsonWs ':' = false by decide),
            hskv, hv, hsk3, insertKey_not_mem acc hkacc]
        | cons kv2 ms' =>
          rcases kv2 with ⟨k2, v2⟩
          have hdm : dumpMembers ind ((k2, v2) :: ms') ++ rest =
              ',' :: '\n' :: (pad (ind + 2) ++
                (encodeStr k2 ++ (':' :: ' ' ::
                  (dumpVal (ind + 2) v2 ++ (dumpMembers ind ms' ++ rest))))) := by
            simp [dumpMembers, List.append_assoc]
          have hsk4 : skipWs ('\n' :: (pad (ind + 2) ++
              (encodeStr k2 ++ (':' :: ' ' ::
                (dumpVal (ind + 2) v2 ++ (dumpMembers ind ms' ++ rest)))))) =
              encodeStr k2 ++ (':' :: ' ' ::
                (dumpVal (ind + 2) v2 ++ (dumpMembers ind ms' ++ rest))) := by
            rw [skipWs_cons_of_ws (by decide), skipWs_pad_append]
            show skipWs ('"' :: ((escapeStr k2 ++ ['"']) ++ _)) = _
            rw [skipWs_cons_of_not_ws (by decide)]
            simp [encodeStr]
          rcases wfMembers_cons hwms with ⟨hwv2, hwms'⟩
          have hms' : msize ((k2, v2) :: ms') ≤ f := by
            have := jsize_pos v
            simp [msize] at hsz ⊢
            omega
          have hnd' : nodupKeys (((acc ++ [(k, v)]) ++ (k2, v2) :: ms').map Prod.fst) =
              true := by
            have : (acc ++ [(k, v)]) ++ (k2, v2) :: ms' = acc ++ (k, v) :: (k2, v2) :: ms' := by
              simp
            rw [this]
            exact hnd
          have hrec := (ih f (by omega)).2.2 ind k2 v2 ms' (acc ++ [(k, v)]) rest hwv2 hwms'
            hms' hdel hnd'
          have hres : (acc ++ [(k, v)]) ++ (k2, v2) :: ms' =
              acc ++ (k, v) :: (k2, v2) :: ms' := by simp
          have hsk5 : skipWs (dumpMembers ind ((k2, v2) :: ms') ++ rest) =
              ',' :: '\n' :: (pad (ind + 2) ++
                (encodeStr k2 ++ (':' :: ' ' ::
                  (dumpVal (ind + 2) v2 ++ (dumpMembers ind ms' ++ rest))))) := by
            rw [hdm, skipWs_cons_of_not_ws (by decide)]
          rw [hek]
          simp [parseMembers, hstr, skipWs_cons_of_not_ws (show jsonWs ':' = false by decide),
            hskv, hv, hsk5, hsk4, insertKey_not_mem acc hkacc, hrec, hres]

mutual

theorem jsize_le_dump : ∀ (ind : Nat) (v : Json), jsize v ≤ (dumpVal ind v).length + 1
  | ind, .null => by simp [jsize, dumpVal]
  | ind, .bool b => by cases b <;> simp [jsize, dumpVal]
  | ind, .num n => by simp [jsize]
  | ind, .str s => by
    have := length_le_escapeStr s
    simp [jsize, dumpVal, encodeStr]
    omega
  | ind, .arr [] => by simp [jsize, lsize, dumpVal]; decide
  | ind, .arr (x :: xs) => by
    have h1 := jsize_le_dump (ind + 2) x
    have h2 := lsize_le_dump ind xs
    simp [jsize, lsize, dumpVal, pad]
    omega
  | ind, .obj [] => by simp [jsize, msize, dumpVal]; decide
  | ind, .obj ((k, v) :: ms) => by
    have h1 := jsize_le_dump (ind + 2) v
    have h2 := msize_le_dump ind ms
    have h3 := length_le_escapeStr k
    simp [jsize, msize, dumpVal, pad, encodeStr]
    omega

theorem lsize_le_dump : ∀ (ind : Nat) (xs : List Json),
    lsize xs ≤ (dumpItems ind xs).length
  | ind, [] => by simp [lsize, dumpItems, pad]
  | ind, x :: xs => by
    have h1 := jsize_le_dump (ind + 2) x
    have h2 := lsize_le_dump ind xs
    simp [lsize, dumpItems, pad]
    omega

theorem msize_le_dump : ∀ (ind : Nat) (ms : List (PyStr × Json)),
    msize ms ≤ (dumpMembers ind ms).length
  | ind, [] => by simp [msize, dumpMembers, pad]
  | ind, (k, v) :: ms => by
    have h1 := jsize_le_dump (ind + 2) v
    have h2 := msize_le_dump ind ms
    have h3 := length_le_escapeStr k
    simp [msize, dumpMembers, pad, encodeStr]
    omega

end

/-- Re-parsing the serialized form of a well-formed value recovers the value
exactly. -/
theorem loads_dumps {v : Json} (hwf : wfJson v = true) : loads (dumps v) = some v := by
  have h1 : skipWs (dumpVal 0 v) = dumpVal 0 v := by
    have := skipWs_dumpVal 0 v []
    simpa using this
  have hsz : jsize v ≤ 2 * (dumpVal 0 v).length + 2 := by
    have := jsize_le_dump 0 v
    omega
  have h2 := (parse_dump_all (2 * (dumpVal 0 v).length + 2)).1 0 v [] hwf hsz trivial
  rw [List.append_nil] at h2
  show (match parseVal (2 * (dumpVal 0 v).length + 2) (skipWs (dumpVal 0 v)) with
    | some (w, rest) => if skipWs rest = [] then some w else none
    | none => none) = some v
  rw [h1, h2]
  simp [skipWs]

theorem insertKey_keys_sub {k : PyStr} {v : Json} :
    ∀ (acc : List (PyStr × Json)) (a : PyStr),
      a ∈ (insertKey k v acc).map Prod.fst → a ∈ acc.map Prod.fst ∨ a = k := by
  intro acc
  induction acc with
  | nil =>
    intro a ha
    rw [show insertKey k v [] = [(k, v)] from rfl] at ha
    simp at ha
    exact Or.inr ha
  | cons kv t ih =>
    rcases kv with ⟨k', v'⟩
    intro a ha
    rw [insertKey] at ha
    by_cases hk : k' = k
    · rw [if_pos hk, List.map_cons] at ha
      rcases List.mem_cons.mp ha with ha | ha
      · exact Or.inl (by rw [List.map_cons]; exact ha ▸ List.mem_cons_self _ _)
      · exact Or.inl (by rw [List.map_cons]; exact List.mem_cons_of_mem _ ha)
    · rw [if_neg hk, List.map_cons] at ha
      rcases List.mem_cons.mp ha with ha | ha
      · exact Or.inl (by rw [List.map_cons]; exact ha ▸ List.mem_cons_self _ _)
      · rcases ih a ha with h | h
        · exact Or.inl (by rw [List.map_cons]; exact List.mem_cons_of_mem _ h)
        · exact Or.inr h

theorem insertKey_keys_nodup {k : PyStr} {v : Json} :
    ∀ (acc : List (PyStr × Json)), nodupKeys (acc.map Prod.fst) = true →
      nodupKeys ((insertKey k v acc).map Prod.fst) = true := by
  intro acc
  induction acc with
  | nil =>
    intro
    simp [insertKey, nodupKeys]
  | cons kv t ih =>
    rcases kv with ⟨k', v'⟩
    intro hnd
    rw [List.map_cons, nodupKeys_iff, List.nodup_cons] at hnd
    rw [insertKey]
    by_cases hk : k' = k
    · rw [if_pos hk, List.map_cons, nodupKeys_iff, List.nodup_cons]
      exact ⟨hnd.1, hnd.2⟩
    · rw [if_neg hk, List.map_cons, nodupKeys_iff, List.nodup_cons]
      refine ⟨?_, by rw [← nodupKeys_iff]; exact ih (by rw [nodupKeys_iff]; exact hnd.2)⟩
      intro hmem
      rcases insertKey_keys_sub t k' hmem with h | h
      · exact hnd.1 h
      · exact hk h

theorem insertKey_wfMembers {k : PyStr} {v : Json} (hv : wfJson v = true) :
    ∀ (acc : List (PyStr × Json)), wfMembers acc = true →
      wfMembers (insertKey k v acc) = true := by
  intro acc
  induction acc with
  | nil =>
    intro
    simp [insertKey, wfMembers, hv]
  | cons kv t ih =>
    rcases kv with ⟨k', v'⟩
    intro hwf
    rcases wfMembers_cons hwf with ⟨hv', ht⟩
    rw [insertKey]
    by_cases hk : k' = k
    · rw [if_pos hk]
      rw [wfMembers, Bool.and_eq_true]
      exact ⟨hv, ht⟩
    · rw [if_neg hk]
      rw [wfMembers, Bool.and_eq_true]
      exact ⟨hv', ih ht⟩

theorem parseNum_shape {s : PyStr} {v : Json} {rest : PyStr}
    (h : parseNum s = some (v, rest)) : ∃ n, v = .num n := by
  unfold parseNum at h
  split at h
  · exact absurd h (by simp)
  · rename_i c0 t0
    by_cases hc : c0 = '-'
    · rw [if_pos hc] at h
      dsimp only at h
      repeat' split at h
      all_goals
        first
        | (injection h with h1; exact ⟨_, (congrArg Prod.fst h1).symm⟩)
        | simp at h
    · rw [if_neg hc] at h
      dsimp only at h
      repeat' split at h
      all_goals
        first
        | (injection h with h1; exact ⟨_, (congrArg Prod.fst h1).symm⟩)
        | simp at h

theorem parse_wf_all : ∀ fuel : Nat,
    (∀ (s : PyStr) (v : Json) (rest : PyStr), parseVal fuel s = some (v, rest) →
      wfJson v = true) ∧
    (∀ (s : PyStr) (xs : List Json) (rest : PyStr), parseItems fuel s = some (xs, rest) →
      wfList xs = true) ∧
    (∀ (s : PyStr) (acc ms : List (PyStr × Json)) (rest : PyStr),
      parseMembers fuel s acc = some (ms, rest) →
      nodupKeys (acc.map Prod.fst) = true → wfMembers acc = true →
      nodupKeys (ms.map Prod.fst) = true ∧ wfMembers ms = true) := by
  intro fuel
  induction fuel using Nat.strong_induction_on with
  | _ fuel ih =>
    refine ⟨?_, ?_, ?_⟩
    · intro s v rest h
      cases fuel with
      | zero => exact absurd h (by simp [parseVal])
      | succ f =>
        cases s with
        | nil => exact absurd h (by simp [parseVal])
        | cons c r =>
          simp only [parseVal] at h
          split at h
          · -- string
            split at h
            · injection h with h1
              rw [Prod.mk.injEq] at h1
              obtain ⟨rfl, rfl⟩ := h1
              rfl
            · exact absurd h (by simp)
          · split at h
            · -- array
              split at h
              · exact absurd h (by simp)
              · split at h
                · injection h with h1
                  rw [Prod.mk.injEq] at h1
                  obtain ⟨rfl, rfl⟩ := h1
                  rfl
                · split at h
                  · rename_i xs rest' heq
                    injection h with h1
                    have hxs := (ih f (by omega)).2.1 _ _ _ heq
                    have : wfJson (.arr xs) = true := hxs
                    rw [Prod.mk.injEq] at h1
                    obtain ⟨rfl, rfl⟩ := h1
                    exact this
                  · exact absurd h (by simp)
            · split at h
              · -- object
                split at h
                · exact absurd h (by simp)
                · split at h
                  · injection h with h1
                    rw [Prod.mk.injEq] at h1
                    obtain ⟨rfl, rfl⟩ := h1
                    rfl
                  · split at h
                    · rename_i ms rest' heq
                      injection h with h1
                      have hms := (ih f (by omega)).2.2 _ [] _ _ heq rfl rfl
                      have : wfJson (.obj ms) = true := by
                        show (nodupKeys (ms.map Prod.fst) && wfMembers ms) = true
                        rw [Bool.and_eq_true]
                        exact hms
                      rw [Prod.mk.injEq] at h1
                      obtain ⟨rfl, rfl⟩ := h1
                      exact this
                    · exact absurd h (by simp)
              · split at h
                · -- null literal
                  split at h
                  · injection h with h1
                    rw [Prod.mk.injEq] at h1
                    obtain ⟨rfl, rfl⟩ := h1
                    rfl
                  · exact absurd h (by simp)
                · split at h
                  · -- true literal
                    split at h
                    · injection h with h1
                      rw [Prod.mk.injEq] at h1
                      obtain ⟨rfl, rfl⟩ := h1
                      rfl
                    · exact absurd h (by simp)
                  · split at h
                    · -- false literal
                      split at h
                      · injection h with h1
                        rw [Prod.mk.injEq] at h1
                        obtain ⟨rfl, rfl⟩ := h1
                        rfl
                      · exact absurd h (by simp)
                    · rcases parseNum_shape h with ⟨n, rfl⟩
                      rfl
    · intro s xs rest h
      cases fuel with
      | zero => exact absurd h (by simp [parseItems])
      | succ f =>
        rw [parseItems] at h
        split at h
        · exact absurd h (by simp)
        · rename_i v rest1 heqv
          have hv := (ih f (by omega)).1 _ _ _ heqv
          split at h
          · exact absurd h (by simp)
          · split at h
            · split at h
              · rename_i xs' rest2 heqi
                injection h with h1
                have hxs' := (ih f (by omega)).2.1 _ _ _ heqi
                have hw : wfList (v :: xs') = true := by
                  rw [wfList, Bool.and_eq_true]
                  exact ⟨hv, hxs'⟩
                have h2 : v :: xs' = xs := congrArg Prod.fst h1
                exact h2 ▸ hw
              · exact absurd h (by simp)
            · split at h
              · injection h with h1
                have hw : wfList [v] = true := by
                  rw [wfList, Bool.and_eq_true]
                  exact ⟨hv, rfl⟩
                have h2 : [v] = xs := congrArg Prod.fst h1
                exact h2 ▸ hw
              · exact absurd h (by simp)
    · intro s acc ms rest h hnd hwm
      cases fuel with
      | zero => exact absurd h (by simp [parseMembers])
      | succ f =>
        cases s with
        | nil => exact absurd h (by simp [parseMembers])
        | cons c r =>
          simp only [parseMembers] at h
          split at h
          · split at h
            · exact absurd h (by simp)
            · rename_i k rest1 heqk
              split at h
              · exact absurd h (by simp)
              · split at h
                · split at h
                  · exact absurd h (by simp)
                  · rename_i v rest2 heqv
                    have hv := (ih f (by omega)).1 _ _ _ heqv
                    split at h
                    · exact absurd h (by simp)
                    · split at h
                      · have := (ih f (by omega)).2.2 _ _ _ _ h
                          (insertKey_keys_nodup acc hnd) (insertKey_wfMembers hv acc hwm)
                        exact this
                      · split at h
                        · injection h with h1
                          have hn := insertKey_keys_nodup (k := k) (v := v) acc hnd
                          have hw := insertKey_wfMembers (k := k) hv acc hwm
                          constructor
                          · rw [Prod.mk.injEq] at h1
                            obtain ⟨rfl, rfl⟩ := h1
                            exact hn
                          · rw [Prod.mk.injEq] at h1
                            obtain ⟨rfl, rfl⟩ := h1
                            exact hw
                        · exact absurd h (by simp)
                · exact absurd h (by simp)
          · exact absurd h (by simp)

theorem loads_wf {s : PyStr} {d : Json} (h : loads s = some d) : wfJson d = true := by
  unfold loads at h
  split at h
  · rename_i v rest heq
    split at h
    · injection h with h1
      exact h1 ▸ (parse_wf_all _).1 _ _ _ heq
    · exact absurd h (by simp)
  · exact absurd h (by simp)

/-- C8: any parsed JSON value whose validation succeeds round-trips through
persistence — serializing it with `json.dump(..., indent=2,
ensure_ascii=False)` and re-parsing the persisted text recovers the
identical value, which re-validates to the identical note collection. -/
theorem persist_reparse_roundtrip (s : PyStr) (d : Json) (ns : List Note)
    (hl : loads s = some d) (hv : notesResponse d = some ns) :
    loads (dumps d) = some d ∧
    ∃ d', loads (dumps d) = some d' ∧ notesResponse d' = some ns :=
  ⟨loads_dumps (loads_wf hl), d, loads_dumps (loads_wf hl), hv⟩

theorem persist_reparse_roundtrip_witness :
    loads (dumps sampleData) = some sampleData ∧
    ∃ d', loads (dumps sampleData) = some d' ∧ notesResponse d' = some sampleNotes :=
  persist_reparse_roundtrip (dumps sampleData) sampleData sampleNotes rfl rfl
